import Mathlib

/-!
# Verification of the note-c-zero JSONB codec (`src/jsonb.c`)

Shallow embedding of the JSONB codec: the COBS encode/decode primitives,
the formatter state machine (`jsonbContext`, `jbAppendBytes`, the typed
adders), the framer (`jsonbFormatEnd` / `jsonbParse`), and the parser side
(`jsonbEnumNext`, `jsonbGetObjectItem` and the typed getters).

Bytes are modelled as `Nat` (a byte is a value `< 256`; `uint32_t`
arithmetic that can wrap is made explicit with `% 2^32`).  Buffers are
`List Nat`: a C buffer of capacity `buflen` is a list of length `buflen`,
and `ctx.buflen` is modelled as `ctx.buf.length`.  Writes through a raw
pointer are modelled with `writeBytes`, which overwrites a segment of the
list and never changes its length (bytes that the C would write past the
allocation are dropped, and tracked separately where a claim is about
out-of-bounds writes).  Reads that the C would perform past the end of a
buffer are modelled explicitly (`EnumStep.oob`).
-/

namespace Jsonb

/-- Little-endian byte composition: `leNat [b0, b1, ...] = b0 + 256*b1 + ...`.
Models the `len |= buf[i] << (8*i)` accumulation in `jsonbEnumNext` and the
`memcpy` of a little-endian scalar in the getters. -/
def leNat (bs : List Nat) : Nat := bs.foldr (fun b acc => b + 256 * acc) 0

/-- Little-endian decomposition into `k` bytes: the in-memory image of a
`uintK_t` value on the (little-endian) host, as appended by `jbAppendK`. -/
def natToLeBytes : Nat → Nat → List Nat
  | 0, _ => []
  | k + 1, v => (v % 256) :: natToLeBytes k (v / 256)

/-- `jbCobsEncode`'s loop state: `block` holds the data bytes (already
XORed with `xor`) written since the last reserved code position; the C
variable `code` is `block.length + 1`.  On a zero input byte, or when a
block reaches 254 data bytes (`code == 0xFF`), the pending code byte is
emitted in front of the block.  After the loop the final code byte is
emitted in front of the remaining block. -/
def cobsEncodeAux (x : Nat) : List Nat → List Nat → List Nat
  | block, [] => ((block.length + 1) ^^^ x) :: block
  | block, ch :: rest =>
    if ch = 0 then
      ((block.length + 1) ^^^ x) :: (block ++ cobsEncodeAux x [] rest)
    else
      if block.length + 2 = 255 then
        (255 ^^^ x) :: ((block ++ [ch ^^^ x]) ++ cobsEncodeAux x [] rest)
      else
        cobsEncodeAux x (block ++ [ch ^^^ x]) rest

/-- `jbCobsEncode ptr length xor dst` (src/jsonb.c:826): COBS-encode the
input span, XORing every output byte with `xor` so that the byte `xor`
never appears in the output.  The returned list is the `length`-byte output
written at `dst`; the C return value is its length. -/
def jbCobsEncode (s : List Nat) (x : Nat) : List Nat := cobsEncodeAux x [] s

/-- `jbCobsDecode`'s loop (src/jsonb.c:878), one input byte consumed per
iteration.  `copy` counts data bytes still to copy out of the current
block; when it hits zero the next input byte is a code byte (XORed with
`x`), preceded by an implicit zero unless the previous code was `0xFF`;
a decoded code byte of zero stops the loop. -/
def cobsDecodeAux (x : Nat) : List Nat → Nat → Nat → List Nat
  | [], _, _ => []
  | b :: rest, code, copy =>
    if copy ≠ 0 then (b ^^^ x) :: cobsDecodeAux x rest code (copy - 1)
    else
      (if code ≠ 255 then [0] else []) ++
        (if b ^^^ x = 0 then [] else cobsDecodeAux x rest (b ^^^ x) ((b ^^^ x) - 1))

/-- `jbCobsDecode ptr length xor dst` (src/jsonb.c:878): the inverse of
`jbCobsEncode`; initial state is `code = 0xFF`, `copy = 0`.  The returned
list is the decoded output; the C return value is its length. -/
def jbCobsDecode (s : List Nat) (x : Nat) : List Nat := cobsDecodeAux x s 255 0

/-- XOR with a fixed mask is an involution on `Nat`. -/
theorem xor_xor_cancel (a x : Nat) : (a ^^^ x) ^^^ x = a := by
  rw [Nat.xor_assoc, Nat.xor_self, Nat.xor_zero]

/-- `a ^^^ x` equals `x` exactly when `a = 0`. -/
theorem xor_eq_mask_iff (a x : Nat) : a ^^^ x = x ↔ a = 0 := by
  constructor
  · intro h
    have := congrArg (· ^^^ x) h
    simpa [xor_xor_cancel, Nat.xor_self] using this
  · rintro rfl
    exact Nat.zero_xor x

/-- While `copy` data bytes remain, the decoder copies them out verbatim
(un-XORing), leaving `code` untouched: consuming a block `B.map (· ^^^ x)`
with `copy = B.length` yields `B` and continues on the rest with `copy = 0`. -/
theorem cobsDecodeAux_copy (x : Nat) (B : List Nat) :
    ∀ (rest : List Nat) (code : Nat),
      cobsDecodeAux x (B.map (· ^^^ x) ++ rest) code B.length
        = B ++ cobsDecodeAux x rest code 0 := by
  induction B with
  | nil => intro rest code; simp
  | cons b B ih =>
    intro rest code
    simp only [List.map_cons, List.cons_append, cobsDecodeAux, List.length_cons]
    rw [if_pos (Nat.succ_ne_zero _)]
    simp [xor_xor_cancel, ih]

/-- With no data bytes pending, the decoder reads one code byte `k ^^^ x`:
it first emits the implicit zero of the previous block (unless that block
was full, `prev = 0xFF`), then continues with `copy = k - 1` data bytes to
go, provided the decoded code `k` is nonzero. -/
theorem cobsDecodeAux_code (x k : Nat) (tail : List Nat) (prev : Nat) (hk : k ≠ 0) :
    cobsDecodeAux x ((k ^^^ x) :: tail) prev 0
      = (if prev = 255 then [] else [0]) ++ cobsDecodeAux x tail k (k - 1) := by
  by_cases h : prev = 255
  · subst h; simp [cobsDecodeAux, xor_xor_cancel, hk]
  · simp [cobsDecodeAux, xor_xor_cancel, hk, h]

/-- Key inversion lemma: decoding the encoder's output restores the pending
block and the remaining input.  `prev` is the decoder's current `code`
state; unless it is `0xFF` the decoder first emits the implicit zero that
terminated the previous block. -/
theorem cobsDecodeAux_cobsEncodeAux (x : Nat) :
    ∀ (s B : List Nat) (prev : Nat), B.length ≤ 253 →
      cobsDecodeAux x (cobsEncodeAux x (B.map (· ^^^ x)) s) prev 0
        = (if prev = 255 then [] else [0]) ++ B ++ s := by
  intro s
  induction s with
  | nil =>
    intro B prev _
    rw [show cobsEncodeAux x (B.map (· ^^^ x)) []
          = (((B.map (· ^^^ x)).length + 1) ^^^ x) :: B.map (· ^^^ x) from rfl]
    rw [List.length_map, cobsDecodeAux_code x (B.length + 1) _ prev (Nat.succ_ne_zero _),
      Nat.add_sub_cancel]
    have hcopy := cobsDecodeAux_copy x B [] (B.length + 1)
    simp only [List.append_nil] at hcopy
    rw [hcopy]
    simp [cobsDecodeAux]
  | cons ch rest ih =>
    intro B prev hB
    by_cases hch : ch = 0
    · subst hch
      rw [show cobsEncodeAux x (B.map (· ^^^ x)) (0 :: rest)
            = (((B.map (· ^^^ x)).length + 1) ^^^ x)
              :: (B.map (· ^^^ x) ++ cobsEncodeAux x [] rest) from by
          simp [cobsEncodeAux]]
      rw [List.length_map, cobsDecodeAux_code x (B.length + 1) _ prev (Nat.succ_ne_zero _),
        Nat.add_sub_cancel, cobsDecodeAux_copy]
      have h0 := ih [] (B.length + 1) (by simp)
      simp only [List.map_nil, List.nil_append] at h0
      rw [h0, if_neg (show ¬(B.length + 1 = 255) by omega)]
      simp
    · by_cases hfull : B.length + 2 = 255
      · rw [show cobsEncodeAux x (B.map (· ^^^ x)) (ch :: rest)
              = (255 ^^^ x) :: ((B ++ [ch]).map (· ^^^ x) ++ cobsEncodeAux x [] rest) from by
            simp [cobsEncodeAux, hch, List.length_map, hfull]]
        rw [cobsDecodeAux_code x 255 _ prev (by omega)]
        rw [show (255 : Nat) - 1 = (B ++ [ch]).length from by simp; omega]
        rw [cobsDecodeAux_copy]
        have h0 := ih [] 255 (by simp)
        simp only [List.map_nil, List.nil_append, if_pos rfl] at h0
        rw [h0]
        simp
      · rw [show cobsEncodeAux x (B.map (· ^^^ x)) (ch :: rest)
              = cobsEncodeAux x ((B ++ [ch]).map (· ^^^ x)) rest from by
            simp [cobsEncodeAux, hch, List.length_map, hfull]]
        rw [ih (B ++ [ch]) prev (by simp; omega)]
        simp

/-- The COBS round trip holds for arbitrary `Nat` sequences and masks
(the XOR mask is involutive regardless of byte bounds). -/
theorem jbCobsDecode_jbCobsEncode (s : List Nat) (x : Nat) :
    jbCobsDecode (jbCobsEncode s x) x = s := by
  have h := cobsDecodeAux_cobsEncodeAux x s [] 255 (by simp)
  simpa [jbCobsDecode, jbCobsEncode] using h

/-- Claim C1 (COBS round-trip).  For every byte sequence `s` and every
forbidden byte `x ∈ 0..=255`, decoding the encoding restores the input:
`jbCobsDecode (jbCobsEncode s x) x = s`. -/
theorem cobs_roundtrip (s : List Nat) (x : Nat)
    (_hs : ∀ b ∈ s, b < 256) (_hx : x < 256) :
    jbCobsDecode (jbCobsEncode s x) x = s :=
  jbCobsDecode_jbCobsEncode s x

/-- Witness for C1 at a concrete input. -/
theorem cobs_roundtrip_witness :
    ((∀ b ∈ [1, 0, 2, 255, 0], b < 256) ∧ 10 < 256) ∧
      jbCobsDecode (jbCobsEncode [1, 0, 2, 255, 0] 10) 10 = [1, 0, 2, 255, 0] :=
  ⟨⟨by decide, by decide⟩, cobs_roundtrip [1, 0, 2, 255, 0] 10 (by decide) (by decide)⟩

/-!
## In-place COBS decoding (claim C9)

`jbCobsDecode` may be invoked with `dst == src` (and `jsonbParse` does so).
`cobsDecodeIP` models that execution over a single buffer: `r` is the read
index (`ptr - buf`), `w` the write index (`dst - buf`), one input byte is
consumed per iteration, so the remaining input count serves as fuel.
Every write of the C loop is a `List.set` on the shared buffer, performed
before the subsequent reads, exactly as the memory would see it.
-/

/-- One-buffer execution of the `jbCobsDecode` loop with `dst == src`. -/
def cobsDecodeIP (x : Nat) : Nat → List Nat → Nat → Nat → Nat → Nat → List Nat × Nat
  | 0, buf, _, w, _, _ => (buf, w)
  | fuel + 1, buf, r, w, code, copy =>
    if copy ≠ 0 then
      cobsDecodeIP x fuel (buf.set w ((buf.getD r 0) ^^^ x)) (r + 1) (w + 1) code (copy - 1)
    else if code ≠ 255 then
      if ((buf.set w 0).getD r 0) ^^^ x = 0 then (buf.set w 0, w + 1)
      else
        cobsDecodeIP x fuel (buf.set w 0) (r + 1) (w + 1)
          (((buf.set w 0).getD r 0) ^^^ x) ((((buf.set w 0).getD r 0) ^^^ x) - 1)
    else
      if (buf.getD r 0) ^^^ x = 0 then (buf, w)
      else cobsDecodeIP x fuel buf (r + 1) w ((buf.getD r 0) ^^^ x) (((buf.getD r 0) ^^^ x) - 1)

/-- `jbCobsDecode ptr length xor ptr` — the decoder run in place over its
own input, starting from `code = 0xFF`, `copy = 0`.  Returns the final
buffer contents and the number of bytes written (`dst - start`). -/
def jbCobsDecodeInPlace (s : List Nat) (x : Nat) : List Nat × Nat :=
  cobsDecodeIP x s.length s 0 0 255 0

/-- Reading just past a list prefix fetches the next byte. -/
theorem getD_append_cons (l₁ l₂ : List Nat) (b : Nat) :
    (l₁ ++ b :: l₂).getD l₁.length 0 = b := by
  simp [List.getD_eq_getElem?_getD, List.getElem?_append_right]
  exact List.getElem_of_append rfl rfl

/-- Taking one past an updated position splits off the written value. -/
theorem take_set_snoc (l : List Nat) :
    ∀ (w v : Nat), w < l.length → (l.set w v).take (w + 1) = l.take w ++ [v] := by
  induction l with
  | nil => intro w v h; simp at h
  | cons a t ih =>
    intro w v h
    cases w with
    | zero => simp
    | succ w =>
      simp only [List.set_cons_succ, List.take_cons, List.take_succ_cons]
      rw [ih w v (by simpa using h)]
      rfl

/-- The functional decoder never produces more bytes than it consumes. -/
theorem cobsDecodeAux_length_le (x : Nat) :
    ∀ (s : List Nat) (code copy : Nat),
      (cobsDecodeAux x s code copy).length ≤ s.length := by
  intro s
  induction s with
  | nil => intro code copy; simp [cobsDecodeAux]
  | cons b rest ih =>
    intro code copy
    by_cases hcopy : copy = 0
    · subst hcopy
      simp only [cobsDecodeAux, ne_eq, not_true_eq_false, if_neg, ite_false,
        List.length_cons]
      by_cases hc : b ^^^ x = 0
      · by_cases h255 : code = 255 <;> simp [hc, h255]
      · by_cases h255 : code = 255
        · simpa [hc, h255] using Nat.le_succ_of_le (ih _ _)
        · simpa [hc, h255] using ih _ _
    · simpa [cobsDecodeAux, hcopy] using ih _ _

/-- Unfolding `cobsDecodeIP` one step while data bytes remain to copy. -/
theorem cobsDecodeIP_succ_copy (x fuel : Nat) (buf : List Nat) (r w code copy : Nat)
    (h : copy ≠ 0) :
    cobsDecodeIP x (fuel + 1) buf r w code copy
      = cobsDecodeIP x fuel (buf.set w ((buf.getD r 0) ^^^ x)) (r + 1) (w + 1)
          code (copy - 1) := by
  rw [cobsDecodeIP, if_pos h]

/-- Unfolding `cobsDecodeIP` at a code byte after a full (`0xFF`) block. -/
theorem cobsDecodeIP_succ_full (x fuel : Nat) (buf : List Nat) (r w : Nat) :
    cobsDecodeIP x (fuel + 1) buf r w 255 0
      = if (buf.getD r 0) ^^^ x = 0 then (buf, w)
        else cobsDecodeIP x fuel buf (r + 1) w ((buf.getD r 0) ^^^ x)
               (((buf.getD r 0) ^^^ x) - 1) := by
  rw [cobsDecodeIP, if_neg (show ¬((0 : Nat) ≠ 0) by simp),
    if_neg (show ¬((255 : Nat) ≠ 255) by simp)]

/-- Unfolding `cobsDecodeIP` at a code byte after a short block: the
implicit zero is written at `w` before the code byte is read. -/
theorem cobsDecodeIP_succ_code (x fuel : Nat) (buf : List Nat) (r w code : Nat)
    (h : code ≠ 255) :
    cobsDecodeIP x (fuel + 1) buf r w code 0
      = if ((buf.set w 0).getD r 0) ^^^ x = 0 then (buf.set w 0, w + 1)
        else cobsDecodeIP x fuel (buf.set w 0) (r + 1) (w + 1)
               (((buf.set w 0).getD r 0) ^^^ x) ((((buf.set w 0).getD r 0) ^^^ x) - 1) := by
  rw [cobsDecodeIP, if_neg (show ¬((0 : Nat) ≠ 0) by simp), if_pos h]

/-- Unfolding `cobsDecodeAux` while data bytes remain. -/
theorem cobsDecodeAux_succ_copy (x b : Nat) (rest : List Nat) (code copy : Nat)
    (h : copy ≠ 0) :
    cobsDecodeAux x (b :: rest) code copy
      = (b ^^^ x) :: cobsDecodeAux x rest code (copy - 1) := by
  rw [cobsDecodeAux, if_pos h]

/-- Unfolding `cobsDecodeAux` at a code byte after a full block. -/
theorem cobsDecodeAux_succ_full (x b : Nat) (rest : List Nat) :
    cobsDecodeAux x (b :: rest) 255 0
      = if b ^^^ x = 0 then [] else cobsDecodeAux x rest (b ^^^ x) ((b ^^^ x) - 1) := by
  rw [cobsDecodeAux, if_neg (show ¬((0 : Nat) ≠ 0) by simp),
    if_neg (show ¬((255 : Nat) ≠ 255) by simp)]
  rw [List.nil_append]

/-- Unfolding `cobsDecodeAux` at a code byte after a short block. -/
theorem cobsDecodeAux_succ_code (x b : Nat) (rest : List Nat) (code : Nat)
    (h : code ≠ 255) :
    cobsDecodeAux x (b :: rest) code 0
      = 0 :: (if b ^^^ x = 0 then []
              else cobsDecodeAux x rest (b ^^^ x) ((b ^^^ x) - 1)) := by
  rw [cobsDecodeAux, if_neg (show ¬((0 : Nat) ≠ 0) by simp), if_pos h]
  rfl

/-- Simulation invariant for in-place decoding: run over `done ++ rest`
with read index `done.length`, the in-place loop writes exactly the bytes
the functional decoder `cobsDecodeAux` produces, sequentially from index
`w`, and never writes at or past the read index (hypotheses `h2`/`h3`
record the write-behind-read gap). -/
theorem cobsDecodeIP_append (x : Nat) :
    ∀ (rest done : List Nat) (w code copy : Nat),
      w ≤ done.length → (copy ≠ 0 → w < done.length) →
      (copy = 0 → code ≠ 255 → w < done.length) →
      (cobsDecodeIP x rest.length (done ++ rest) done.length w code copy).2
          = w + (cobsDecodeAux x rest code copy).length
      ∧ (cobsDecodeIP x rest.length (done ++ rest) done.length w code copy).1.take
            (w + (cobsDecodeAux x rest code copy).length)
          = done.take w ++ cobsDecodeAux x rest code copy := by
  intro rest
  induction rest with
  | nil =>
    intro done w code copy h1 h2 h3
    refine ⟨by simp [cobsDecodeIP, cobsDecodeAux], ?_⟩
    simp [cobsDecodeIP, cobsDecodeAux, List.take_append_of_le_length h1]
  | cons b rest ih =>
    intro done w code copy h1 h2 h3
    rw [show (b :: rest).length = rest.length + 1 from rfl]
    by_cases hcopy : copy = 0
    · subst hcopy
      by_cases h255 : code = 255
      · subst h255
        rw [cobsDecodeIP_succ_full, cobsDecodeAux_succ_full, getD_append_cons]
        by_cases hc : b ^^^ x = 0
        · rw [if_pos hc, if_pos hc]
          exact ⟨by simp, by simp [List.take_append_of_le_length h1]⟩
        · rw [if_neg hc, if_neg hc]
          rw [show done ++ b :: rest = (done ++ [b]) ++ rest from by simp,
            show done.length + 1 = (done ++ [b]).length from by simp]
          have hIH := ih (done ++ [b]) w (b ^^^ x) ((b ^^^ x) - 1)
            (by simp only [List.length_append, List.length_cons, List.length_nil]; omega)
            (fun _ => by simp only [List.length_append, List.length_cons, List.length_nil]; omega)
            (fun _ _ => by simp only [List.length_append, List.length_cons, List.length_nil]; omega)
          refine ⟨hIH.1, ?_⟩
          rw [hIH.2, List.take_append_of_le_length h1]
      · -- copy = 0, code ≠ 255: emit the implicit zero at w, then read a code byte
        have hw : w < done.length := h3 rfl h255
        have hsetapp : (done ++ b :: rest).set w 0 = done.set w 0 ++ b :: rest :=
          List.set_append_left _ _ hw
        have hget : ((done ++ b :: rest).set w 0).getD done.length 0 = b := by
          rw [hsetapp, show done.length = (done.set w 0).length from by simp]
          exact getD_append_cons _ _ _
        rw [cobsDecodeIP_succ_code x rest.length _ _ _ _ h255,
          cobsDecodeAux_succ_code x b rest _ h255, hget, hsetapp]
        by_cases hc : b ^^^ x = 0
        · rw [if_pos hc, if_pos hc]
          refine ⟨by simp, ?_⟩
          rw [show w + ([(0 : Nat)]).length = w + 1 from rfl,
            List.take_append_of_le_length
              (show w + 1 ≤ (done.set w 0).length from by simp only [List.length_set]; omega),
            take_set_snoc _ _ _ hw]
        · rw [if_neg hc, if_neg hc]
          rw [show done.set w 0 ++ b :: rest = (done.set w 0 ++ [b]) ++ rest from by simp,
            show done.length + 1 = (done.set w 0 ++ [b]).length from by simp]
          have hIH := ih (done.set w 0 ++ [b]) (w + 1) (b ^^^ x) ((b ^^^ x) - 1)
            (by simp only [List.length_append, List.length_set, List.length_cons,
                  List.length_nil]; omega)
            (fun _ => by simp only [List.length_append, List.length_set, List.length_cons,
                  List.length_nil]; omega)
            (fun _ _ => by simp only [List.length_append, List.length_set, List.length_cons,
                  List.length_nil]; omega)
          constructor
          · rw [hIH.1]; simp only [List.length_cons]; omega
          · rw [show w + (0 :: cobsDecodeAux x rest (b ^^^ x) ((b ^^^ x) - 1)).length
                  = (w + 1) + (cobsDecodeAux x rest (b ^^^ x) ((b ^^^ x) - 1)).length from by
                simp only [List.length_cons]; omega]
            rw [hIH.2,
              List.take_append_of_le_length
                (show w + 1 ≤ (done.set w 0).length from by simp only [List.length_set]; omega),
              take_set_snoc _ _ _ hw]
            simp
    · -- copy ≠ 0: copy one data byte out
      have hw : w < done.length := h2 hcopy
      rw [cobsDecodeIP_succ_copy x rest.length _ _ _ _ _ hcopy,
        cobsDecodeAux_succ_copy x b rest _ _ hcopy, getD_append_cons,
        List.set_append_left _ _ hw]
      rw [show done.set w (b ^^^ x) ++ b :: rest = (done.set w (b ^^^ x) ++ [b]) ++ rest from by
          simp,
        show done.length + 1 = (done.set w (b ^^^ x) ++ [b]).length from by simp]
      have hIH := ih (done.set w (b ^^^ x) ++ [b]) (w + 1) code (copy - 1)
        (by simp only [List.length_append, List.length_set, List.length_cons,
              List.length_nil]; omega)
        (fun _ => by simp only [List.length_append, List.length_set, List.length_cons,
              List.length_nil]; omega)
        (fun _ _ => by simp only [List.length_append, List.length_set, List.length_cons,
              List.length_nil]; omega)
      constructor
      · rw [hIH.1]; simp only [List.length_cons]; omega
      · rw [show w + ((b ^^^ x) :: cobsDecodeAux x rest code (copy - 1)).length
              = (w + 1) + (cobsDecodeAux x rest code (copy - 1)).length from by
            simp only [List.length_cons]; omega]
        rw [hIH.2,
          List.take_append_of_le_length
            (show w + 1 ≤ (done.set w (b ^^^ x)).length from by
              simp only [List.length_set]; omega),
          take_set_snoc _ _ _ hw]
        simp

/-- Claim C9.  Running `jbCobsDecode` in place (`dst == src`) produces the
same output bytes and length as the functional decoder into a disjoint
destination, and the decoded length never exceeds the input length. -/
theorem cobs_decode_in_place (s : List Nat) (x : Nat) :
    (jbCobsDecodeInPlace s x).1.take (jbCobsDecodeInPlace s x).2 = jbCobsDecode s x
    ∧ (jbCobsDecodeInPlace s x).2 = (jbCobsDecode s x).length
    ∧ (jbCobsDecode s x).length ≤ s.length := by
  have h := cobsDecodeIP_append x s [] 0 255 0 (by simp)
    (by intro h; exact absurd rfl h) (by intro _ h; exact absurd rfl h)
  simp only [List.nil_append, List.length_nil, Nat.zero_add, List.take_nil] at h
  simp only [jbCobsDecodeInPlace, jbCobsDecode]
  refine ⟨?_, h.1, cobsDecodeAux_length_le x s 255 0⟩
  rw [h.1]
  exact h.2

/-!
## Formatter state machine

The C `jsonbContext` (src/jsonb.h:59) carries `overrun`, `error`, `opcode`,
an optional grow callback, `buf`, `buflen` and `bufused`.  Here a buffer of
capacity `buflen` is a `List Nat` of that length, so `ctx.buflen` is
`ctx.buf.length`.  Strings (`const char *`) are NUL-free byte lists; the
NUL terminator the C appends or scans for is made explicit.
-/

/-- `bufGrowFn` (src/jsonb.h:57): receives the current buffer and the
needed byte count; returns the replacement buffer on success (the C
callback mutates `*buf`/`*buflen` and returns `true`) or `none` (returns
`false`). -/
def GrowFn : Type := List Nat → Nat → Option (List Nat)

/-- The `jsonbContext` structure (src/jsonb.h:59); `buflen = buf.length`. -/
structure jsonbContext where
  overrun : Bool
  error : Bool
  opcode : Nat
  growFn : Option GrowFn
  buf : List Nat
  bufused : Nat

def JSONB_INVALID : Nat := 0x00
def JSONB_BEGIN_OBJECT : Nat := 0x10
def JSONB_END_OBJECT : Nat := 0x11
def JSONB_BEGIN_ARRAY : Nat := 0x12
def JSONB_END_ARRAY : Nat := 0x13
def JSONB_NULL : Nat := 0x20
def JSONB_TRUE : Nat := 0x21
def JSONB_FALSE : Nat := 0x22
def JSONB_ITEM : Nat := 0x30
def JSONB_STRING : Nat := 0x40
def JSONB_BIN8 : Nat := 0x51
def JSONB_BIN16 : Nat := 0x52
def JSONB_BIN24 : Nat := 0x53
def JSONB_BIN32 : Nat := 0x54
def JSONB_INT8 : Nat := 0x61
def JSONB_INT16 : Nat := 0x62
def JSONB_INT32 : Nat := 0x64
def JSONB_INT64 : Nat := 0x68
def JSONB_UINT8 : Nat := 0x71
def JSONB_UINT16 : Nat := 0x72
def JSONB_UINT32 : Nat := 0x74
def JSONB_UINT64 : Nat := 0x78
def JSONB_FLOAT : Nat := 0x84
def JSONB_DOUBLE : Nat := 0x88

/-- `JSONB_TERMINATOR` is `'\n'`. -/
def JSONB_TERMINATOR : Nat := 0x0A

/-- `2^32`: `uint32_t` arithmetic wraps modulo this. -/
def UINT32_MOD : Nat := 4294967296

/-- Overwrite `bs.length` bytes of `buf` starting at index `i`.  The result
keeps `buf`'s length: bytes the C would store past the end of the
allocation are dropped here (claim C5 tracks such out-of-bounds writes
separately via `jbAppendBytesOob`). -/
def writeBytes (buf : List Nat) (i : Nat) (bs : List Nat) : List Nat :=
  (buf.take i ++ bs ++ buf.drop (i + bs.length)).take buf.length

theorem writeBytes_length (buf : List Nat) (i : Nat) (bs : List Nat) :
    (writeBytes buf i bs).length = buf.length := by
  simp only [writeBytes, List.length_take, List.length_append, List.length_drop]
  omega

/-- Byte count of one append as the C computes it (src/jsonb.c:798):
`needed` is a `uint32_t` initialized from the `uint32_t` length argument
(`bs.length % 2^32`) and incremented for the opcode byte, so it wraps
modulo `2^32` — at a length argument of `0xFFFFFFFF` the increment wraps
`needed` to 0. -/
def jbNeeded (op : Nat) (bs : List Nat) : Nat :=
  (bs.length % UINT32_MOD + (if op ≠ JSONB_INVALID then 1 else 0)) % UINT32_MOD

/-- The number of bytes the write phase of `jbAppendBytes` actually
stores: one opcode byte (unless `JSONB_INVALID`) plus the `memcpy` of the
`uint32_t` length.  Unlike `jbNeeded` this is a plain count of stores —
the two write statements do not collapse when the `uint32_t` sum wraps. -/
def jbWriteCount (op : Nat) (bs : List Nat) : Nat :=
  (if op ≠ JSONB_INVALID then 1 else 0) + bs.length % UINT32_MOD

/-- The capacity-check/grow phase of `jbAppendBytes` (src/jsonb.c:802):
if the append does not fit, call the grow callback; when it is absent or
fails, set the sticky `overrun` flag.  The comparison
`ctx->bufused + needed > ctx->buflen` is a `uint32_t` sum, hence the
`% 2^32`.  Note the C performs this check even when `overrun` is already
set. -/
def jbAppendGrow (ctx : jsonbContext) (needed : Nat) : jsonbContext :=
  if (ctx.bufused + needed) % UINT32_MOD > ctx.buf.length then
    match ctx.growFn with
    | none => { ctx with overrun := true }
    | some g =>
      match g ctx.buf needed with
      | none => { ctx with overrun := true }
      | some nb => { ctx with buf := nb }
  else ctx

/-- `jbAppendBytes` (src/jsonb.c:796): grow/overrun phase, then, unless
`overrun` is set, write the opcode byte (when not `JSONB_INVALID`)
followed by the `uint32_t`-length payload bytes at `bufused`; the
`uint32_t` cursor advances by `needed` modulo `2^32`. -/
def jbAppendBytes (ctx : jsonbContext) (op : Nat) (bs : List Nat) : jsonbContext :=
  let c := jbAppendGrow ctx (jbNeeded op bs)
  if c.overrun then c
  else { c with
          buf := writeBytes c.buf c.bufused
            ((if op ≠ JSONB_INVALID then [op] else []) ++ bs.take (bs.length % UINT32_MOD)),
          bufused := (c.bufused + jbNeeded op bs) % UINT32_MOD }

/-- Whether this `jbAppendBytes` call stores a byte at an index `≥ buflen`
(an out-of-bounds write in the C): it writes (`overrun` clear after the
grow phase), stores at least one byte, and the store range
`[bufused, bufused + jbWriteCount)` extends past the end of the buffer. -/
def jbAppendBytesOob (ctx : jsonbContext) (op : Nat) (bs : List Nat) : Bool :=
  let c := jbAppendGrow ctx (jbNeeded op bs)
  !c.overrun && decide (0 < jbWriteCount op bs)
    && decide (c.bufused + jbWriteCount op bs > c.buf.length)

/-- `jsonbFormatBegin` (src/jsonb.c:27). -/
def jsonbFormatBegin (buf : List Nat) (g : Option GrowFn) : jsonbContext :=
  { overrun := false, error := false, opcode := 0, growFn := g, buf := buf, bufused := 0 }

def jsonbAddObjectBegin (ctx : jsonbContext) : jsonbContext :=
  jbAppendBytes ctx JSONB_BEGIN_OBJECT []

def jsonbAddObjectEnd (ctx : jsonbContext) : jsonbContext :=
  jbAppendBytes ctx JSONB_END_OBJECT []

def jsonbAddArrayBegin (ctx : jsonbContext) : jsonbContext :=
  jbAppendBytes ctx JSONB_BEGIN_ARRAY []

def jsonbAddArrayEnd (ctx : jsonbContext) : jsonbContext :=
  jbAppendBytes ctx JSONB_END_ARRAY []

/-- `jsonbAddString`: `strlen(str)+1` bytes — the string and its NUL. -/
def jsonbAddString (ctx : jsonbContext) (str : List Nat) : jsonbContext :=
  jbAppendBytes ctx JSONB_STRING (str ++ [0])

def jsonbAddNull (ctx : jsonbContext) : jsonbContext :=
  jbAppendBytes ctx JSONB_NULL []

def jsonbAddTrue (ctx : jsonbContext) : jsonbContext :=
  jbAppendBytes ctx JSONB_TRUE []

def jsonbAddFalse (ctx : jsonbContext) : jsonbContext :=
  jbAppendBytes ctx JSONB_FALSE []

def jsonbAddBool (ctx : jsonbContext) (tf : Bool) : jsonbContext :=
  jbAppendBytes ctx (if tf then JSONB_TRUE else JSONB_FALSE) []

/-- `jsonbAddInt8` takes a `uint8_t` in src/jsonb.c:133 and appends its one
byte; the `...ToObject` wrappers below model the C integer conversions at
the call boundary. -/
def jsonbAddInt8 (ctx : jsonbContext) (v : Nat) : jsonbContext :=
  jbAppendBytes ctx JSONB_INT8 (natToLeBytes 1 v)

def jsonbAddInt16 (ctx : jsonbContext) (v : Nat) : jsonbContext :=
  jbAppendBytes ctx JSONB_INT16 (natToLeBytes 2 v)

def jsonbAddInt32 (ctx : jsonbContext) (v : Nat) : jsonbContext :=
  jbAppendBytes ctx JSONB_INT32 (natToLeBytes 4 v)

/-- `jsonbAddInt64` (src/jsonb.c:145) declares its parameter `uint32_t v`
(the header declares `int64_t`), then appends 8 bytes starting at `&v`:
the 4 little-endian bytes of the 32-bit value followed by 4 bytes the C
never defined (read past the 4-byte object); those are modelled as zero. -/
def jsonbAddInt64 (ctx : jsonbContext) (v : Nat) : jsonbContext :=
  jbAppendBytes ctx JSONB_INT64 (natToLeBytes 4 v ++ [0, 0, 0, 0])

def jsonbAddUint8 (ctx : jsonbContext) (v : Nat) : jsonbContext :=
  jbAppendBytes ctx JSONB_UINT8 (natToLeBytes 1 v)

def jsonbAddUint16 (ctx : jsonbContext) (v : Nat) : jsonbContext :=
  jbAppendBytes ctx JSONB_UINT16 (natToLeBytes 2 v)

def jsonbAddUint32 (ctx : jsonbContext) (v : Nat) : jsonbContext :=
  jbAppendBytes ctx JSONB_UINT32 (natToLeBytes 4 v)

/-- `jsonbAddUint64` (src/jsonb.c:163) has the same `uint32_t v` slip as
`jsonbAddInt64`: 4 defined bytes plus 4 undefined bytes modelled as zero. -/
def jsonbAddUint64 (ctx : jsonbContext) (v : Nat) : jsonbContext :=
  jbAppendBytes ctx JSONB_UINT64 (natToLeBytes 4 v ++ [0, 0, 0, 0])

/-- `jsonbAddItemToObject`: `ITEM` opcode, the name bytes and a NUL. -/
def jsonbAddItemToObject (ctx : jsonbContext) (name : List Nat) : jsonbContext :=
  jbAppendBytes ctx JSONB_ITEM (name ++ [0])

def jsonbAddStringToObject (ctx : jsonbContext) (name str : List Nat) : jsonbContext :=
  jsonbAddString (jsonbAddItemToObject ctx name) str

/-- `jsonbAddInt8ToObject` takes `int8_t v`; its conversion to
`jsonbAddInt8`'s `uint8_t` parameter is `v mod 2^8`. -/
def jsonbAddInt8ToObject (ctx : jsonbContext) (name : List Nat) (v : Int) : jsonbContext :=
  jsonbAddInt8 (jsonbAddItemToObject ctx name) (v.emod 256).toNat

def jsonbAddInt16ToObject (ctx : jsonbContext) (name : List Nat) (v : Int) : jsonbContext :=
  jsonbAddInt16 (jsonbAddItemToObject ctx name) (v.emod 65536).toNat

def jsonbAddInt32ToObject (ctx : jsonbContext) (name : List Nat) (v : Int) : jsonbContext :=
  jsonbAddInt32 (jsonbAddItemToObject ctx name) (v.emod UINT32_MOD).toNat

/-- `jsonbAddInt64ToObject` (src/jsonb.c:247) takes `int64_t v` and passes
it to `jsonbAddInt64`, whose parameter is `uint32_t`: the value is
truncated to `v mod 2^32` at that call. -/
def jsonbAddInt64ToObject (ctx : jsonbContext) (name : List Nat) (v : Int) : jsonbContext :=
  jsonbAddInt64 (jsonbAddItemToObject ctx name) (v.emod UINT32_MOD).toNat

def jsonbAddUint8ToObject (ctx : jsonbContext) (name : List Nat) (v : Nat) : jsonbContext :=
  jsonbAddUint8 (jsonbAddItemToObject ctx name) (v % 256)

def jsonbAddUint16ToObject (ctx : jsonbContext) (name : List Nat) (v : Nat) : jsonbContext :=
  jsonbAddUint16 (jsonbAddItemToObject ctx name) (v % 65536)

def jsonbAddUint32ToObject (ctx : jsonbContext) (name : List Nat) (v : Nat) : jsonbContext :=
  jsonbAddUint32 (jsonbAddItemToObject ctx name) (v % UINT32_MOD)

/-- `jsonbAddUint64ToObject` (src/jsonb.c:270) already declares `uint32_t v`. -/
def jsonbAddUint64ToObject (ctx : jsonbContext) (name : List Nat) (v : Nat) : jsonbContext :=
  jsonbAddUint64 (jsonbAddItemToObject ctx name) (v % UINT32_MOD)

def jsonbAddBoolToObject (ctx : jsonbContext) (name : List Nat) (tf : Bool) : jsonbContext :=
  jsonbAddBool (jsonbAddItemToObject ctx name) tf

/-- `jbCobsGuaranteedFit` (src/jsonb.c:901). -/
def jbCobsGuaranteedFit (buflen : Nat) : Nat :=
  let cobsOverhead := 1 + buflen / 254 + 1
  if cobsOverhead > buflen then 0 else buflen - cobsOverhead

/-- `ctx->buflen - siglen` computed in `uint32_t` (src/jsonb.c:48): for
`buflen < 5` this wraps around. -/
def jbBuflenWithoutSig (ctx : jsonbContext) : Nat :=
  (ctx.buf.length + UINT32_MOD - 5) % UINT32_MOD

/-- `maxExpansionByEncoding` (src/jsonb.c:51). -/
def jbMaxExpansion (ctx : jsonbContext) : Nat :=
  jbBuflenWithoutSig ctx - jbCobsGuaranteedFit (jbBuflenWithoutSig ctx)

/-- Whether `jsonbFormatEnd` emits a frame: neither sticky flag is set and
the capacity check at src/jsonb.c:52 passes (the sum is a `uint32_t`). -/
def jsonbFormatEndOk (ctx : jsonbContext) : Bool :=
  !ctx.overrun && !ctx.error
    && !decide ((ctx.bufused + jbMaxExpansion ctx) % UINT32_MOD > jbBuflenWithoutSig ctx)

/-- `jsonbFormatEnd` (src/jsonb.c:38).  On the emit path the payload
`buf[0..bufused)` is moved up by `maxExpansion + siglen`, the header is
written at 0, the payload is COBS-encoded (forbidden byte `'\n'`)
downward from offset 2 — the write cursor never catches up with the moved
payload being read, so the encoded bytes equal `jbCobsEncode` of the
payload — then the trailer and the terminator follow, and `bufused`
becomes the frame length. -/
def jsonbFormatEnd (ctx : jsonbContext) : jsonbContext :=
  if ctx.overrun = true ∨ ctx.error = true then ctx
  else if (ctx.bufused + jbMaxExpansion ctx) % UINT32_MOD > jbBuflenWithoutSig ctx then ctx
  else
    let payload := ctx.buf.take ctx.bufused
    let moved := writeBytes ctx.buf (jbMaxExpansion ctx + 5) payload
    let enc := jbCobsEncode payload JSONB_TERMINATOR
    let frame := [0x7B, 0x3A] ++ enc ++ [0x3A, 0x7D, JSONB_TERMINATOR]
    { ctx with buf := writeBytes moved 0 frame, bufused := frame.length }

/-- A sequence of formatter appends, each routed through `jbAppendBytes`
(every `jsonbAdd...` call is of this shape). -/
def applyAppends (ctx : jsonbContext) : List (Nat × List Nat) → jsonbContext
  | [] => ctx
  | (op, bs) :: rest => applyAppends (jbAppendBytes ctx op bs) rest

/-- `jsonbParse` (src/jsonb.c:315): trim control bytes (`< 0x20`) from both
ends, demand the `"{:"` header and `":}"` trailer, then COBS-decode the
body in place with forbidden byte `'\n'`.  Returns the parser context
(`buf` is the decoded payload, `buflen = buf.length`, cursor reset);
`none` models `return false`. -/
def jsonbParse (input : List Nat) : Option jsonbContext :=
  let b1 := input.dropWhile (fun b => b < 0x20)
  let b2 := (b1.reverse.dropWhile (fun b => b < 0x20)).reverse
  if b2.length = 0 then none
  else if 2 ≤ b2.length ∧ b2.take 2 = [0x7B, 0x3A] then
    let b3 := b2.drop 2
    if 2 ≤ b3.length ∧ b3.drop (b3.length - 2) = [0x3A, 0x7D] then
      some { overrun := false, error := false, opcode := 0, growFn := none,
             buf := jbCobsDecode (b3.take (b3.length - 2)) JSONB_TERMINATOR, bufused := 0 }
    else none
  else none

/-!
## Claims C3 (empty-object frame), C5 (bounded writes), C7 (sticky overrun)
-/

/-- Claim C3, counterexample.  Formatting `{}` and ending the frame does
not produce the claimed bytes `7B 3A 03 10 11 3A 7D 0A`: `jbCobsEncode`
XORs every output byte with the forbidden byte `0x0A`, so the COBS body of
payload `10 11` is `09 1A 1B`, not `03 10 11`. -/
theorem empty_object_frame_cex :
    ¬((jsonbFormatEnd (jsonbAddObjectEnd (jsonbAddObjectBegin
          (jsonbFormatBegin (List.replicate 16 0) none)))).buf.take
        (jsonbFormatEnd (jsonbAddObjectEnd (jsonbAddObjectBegin
          (jsonbFormatBegin (List.replicate 16 0) none)))).bufused
      = [0x7B, 0x3A, 0x03, 0x10, 0x11, 0x3A, 0x7D, 0x0A]) := by decide

/-- Claim C3, amended.  Formatting an empty object produces payload bytes
`10 11`, and `jsonbFormatEnd` produces exactly the frame
`7B 3A 09 1A 1B 3A 7D 0A` in `buf[0..bufused)` (the COBS body carries
every byte XORed with the terminator `0x0A`). -/
theorem empty_object_frame :
    ((jsonbAddObjectEnd (jsonbAddObjectBegin
          (jsonbFormatBegin (List.replicate 16 0) none))).buf.take
        (jsonbAddObjectEnd (jsonbAddObjectBegin
          (jsonbFormatBegin (List.replicate 16 0) none))).bufused
      = [0x10, 0x11])
    ∧ ((jsonbFormatEnd (jsonbAddObjectEnd (jsonbAddObjectBegin
          (jsonbFormatBegin (List.replicate 16 0) none)))).buf.take
        (jsonbFormatEnd (jsonbAddObjectEnd (jsonbAddObjectBegin
          (jsonbFormatBegin (List.replicate 16 0) none)))).bufused
      = [0x7B, 0x3A, 0x09, 0x1A, 0x1B, 0x3A, 0x7D, 0x0A]) := by decide

/-- A context with an empty buffer and a well-behaved grow callback that
enlarges the buffer by exactly the requested amount. -/
def emptyGrowCtx : jsonbContext :=
  { overrun := false, error := false, opcode := 0,
    growFn := some (fun b n => some (b ++ List.replicate n 0)),
    buf := [], bufused := 0 }

/-- Claim C5, counterexample, two ways.  First, a grow callback may return
success without enlarging the buffer; `jbAppendBytes` then proceeds to
write, storing a byte at an index `≥ buflen`.  Second, even under a
well-behaved callback the `uint32_t` size arithmetic wraps: appending a
string with length argument `0xFFFFFFFF` (as `jsonbAddStringLen` does)
wraps `needed` to 0, the capacity check passes, grow is never invoked,
and the `memcpy` stores far past `buflen`.  Quantifying over all
callbacks and appends, "the formatter never writes to an index at or
beyond buflen" fails. -/
theorem append_oob_cex :
    jbAppendBytesOob
      { overrun := false, error := false, opcode := 0,
        growFn := some (fun b _ => some b), buf := [], bufused := 0 }
      JSONB_NULL [] = true
    ∧ jbAppendBytesOob emptyGrowCtx JSONB_STRING
        (List.replicate (UINT32_MOD - 1) 0) = true := by
  constructor
  · decide
  · have hneed : jbNeeded JSONB_STRING (List.replicate (UINT32_MOD - 1) 0) = 0 := by
      rw [jbNeeded, List.length_replicate]
      decide
    have hW : jbWriteCount JSONB_STRING (List.replicate (UINT32_MOD - 1) 0)
        = UINT32_MOD := by
      rw [jbWriteCount, List.length_replicate]
      decide
    have hgrow : jbAppendGrow emptyGrowCtx 0 = emptyGrowCtx := by
      rw [jbAppendGrow, if_neg (by decide)]
    rw [jbAppendBytesOob]
    rw [hneed, hW, hgrow]
    decide

/-- A well-behaved grow callback: on success the buffer gains at least the
requested number of bytes (what `realloc`-style callbacks provide). -/
def goodGrow : Option GrowFn → Prop
  | none => True
  | some g => ∀ buf needed nb, g buf needed = some nb → buf.length + needed ≤ nb.length

/-- Claim C5, amended.  For every append whose `uint32_t` size arithmetic
does not wrap (`bufused` plus the stored-byte count stays below `2^32`)
and every grow callback that, on success, enlarges the buffer by at least
the needed amount (and for contexts with `bufused ≤ buflen`), the
formatter never writes at or beyond `buflen`; and when such an append
exceeds capacity with the callback absent or failing, it sets `overrun`
and writes nothing — the context is unchanged but for the flag. -/
theorem append_in_bounds (ctx : jsonbContext) (op : Nat) (bs : List Nat)
    (hg : goodGrow ctx.growFn) (hu : ctx.bufused ≤ ctx.buf.length)
    (hnw : ctx.bufused + jbWriteCount op bs < UINT32_MOD) :
    jbAppendBytesOob ctx op bs = false
    ∧ (jbAppendBytes ctx op bs).bufused ≤ (jbAppendBytes ctx op bs).buf.length
    ∧ (ctx.bufused + jbNeeded op bs > ctx.buf.length →
        (ctx.growFn = none ∨ ∃ g, ctx.growFn = some g ∧ g ctx.buf (jbNeeded op bs) = none) →
        jbAppendBytes ctx op bs = { ctx with overrun := true }) := by
  have hneq : jbNeeded op bs = jbWriteCount op bs := by
    simp only [jbNeeded, jbWriteCount, UINT32_MOD] at hnw ⊢
    omega
  have hmod : (ctx.bufused + jbNeeded op bs) % UINT32_MOD
      = ctx.bufused + jbNeeded op bs := by
    rw [hneq]
    exact Nat.mod_eq_of_lt hnw
  by_cases hcap : ctx.bufused + jbNeeded op bs > ctx.buf.length
  · cases hgf : ctx.growFn with
    | none =>
      have hgrow : jbAppendGrow ctx (jbNeeded op bs) = { ctx with overrun := true } := by
        rw [jbAppendGrow]
        simp only [hmod]
        rw [if_pos hcap, hgf]
      refine ⟨?_, ?_, fun _ _ => ?_⟩
      · simp [jbAppendBytesOob, hgrow]
      · simp [jbAppendBytes, hgrow, hu]
      · simp [jbAppendBytes, hgrow, hgf]
    | some g =>
      rw [hgf] at hg
      cases hga : g ctx.buf (jbNeeded op bs) with
      | none =>
        have hgrow : jbAppendGrow ctx (jbNeeded op bs) = { ctx with overrun := true } := by
          rw [jbAppendGrow]
          simp only [hmod]
          rw [if_pos hcap, hgf]
          simp [hga]
        refine ⟨?_, ?_, fun _ _ => ?_⟩
        · simp [jbAppendBytesOob, hgrow]
        · simp [jbAppendBytes, hgrow, hu]
        · simp [jbAppendBytes, hgrow, hgf]
      | some nb =>
        have hgrow : jbAppendGrow ctx (jbNeeded op bs) = { ctx with buf := nb } := by
          rw [jbAppendGrow]
          simp only [hmod]
          rw [if_pos hcap, hgf]
          simp [hga]
        have hnb : ctx.buf.length + jbNeeded op bs ≤ nb.length := hg _ _ _ hga
        refine ⟨?_, ?_, fun _ hbad => ?_⟩
        · simp only [jbAppendBytesOob, hgrow]
          simp only [Bool.and_eq_false_iff]
          right
          simp only [decide_eq_false_iff_not, not_lt]
          omega
        · by_cases ho : ctx.overrun = true
          · simp [jbAppendBytes, hgrow, ho]; omega
          · simp only [jbAppendBytes, hgrow]
            rw [if_neg (by simpa using ho)]
            simp only [writeBytes_length, hmod]
            omega
        · rcases hbad with hnone | ⟨g', hg', hga'⟩
          · exact absurd hnone (by simp)
          · have hgg : g = g' := by injection hg'
            subst hgg
            rw [hga] at hga'
            exact absurd hga' (by simp)
  · have hgrow : jbAppendGrow ctx (jbNeeded op bs) = ctx := by
      rw [jbAppendGrow]
      simp only [hmod]
      rw [if_neg hcap]
    refine ⟨?_, ?_, fun hcap' _ => absurd hcap' hcap⟩
    · simp only [jbAppendBytesOob, hgrow]
      simp only [Bool.and_eq_false_iff]
      right
      simp only [decide_eq_false_iff_not, not_lt]
      omega
    · by_cases ho : ctx.overrun = true
      · simp [jbAppendBytes, hgrow, ho, hu]
      · simp only [jbAppendBytes, hgrow]
        rw [if_neg (by simpa using ho)]
        simp only [writeBytes_length, hmod]
        omega

/-- Witness for C5 (amended) at a concrete context. -/
theorem append_in_bounds_witness :
    jbAppendBytesOob (jsonbFormatBegin [0, 0] none) JSONB_NULL [] = false :=
  (append_in_bounds (jsonbFormatBegin [0, 0] none) JSONB_NULL []
    trivial (by decide) (by decide)).1

/-- Claim C7, counterexample.  With `overrun` already set, an append that
exceeds capacity still invokes the grow callback (src/jsonb.c:802 performs
the capacity check before consulting the flag); a succeeding callback then
replaces `buf`/`buflen`, so the context is not left unchanged. -/
def overrunGrowCtx : jsonbContext :=
  { overrun := true, error := false, opcode := 0,
    growFn := some (fun b n => some (b ++ List.replicate n 0)),
    buf := [], bufused := 0 }

theorem overrun_append_cex :
    (jbAppendBytes overrunGrowCtx JSONB_NULL []).buf ≠ overrunGrowCtx.buf := by decide

/-- Claim C7, amended.  Once `overrun` is set, every append keeps the flag
set, writes no payload bytes and leaves `error`, `bufused` and `opcode`
unchanged; the buffer can change only through the grow callback, which a
capacity-exceeding append still invokes (with no callback the context is
entirely unchanged); and `jsonbFormatEnd` returns at once, leaving the
context unchanged and emitting no frame. -/
theorem overrun_sticky (ctx : jsonbContext) (op : Nat) (bs : List Nat)
    (h : ctx.overrun = true) :
    (jbAppendBytes ctx op bs).overrun = true
    ∧ (jbAppendBytes ctx op bs).error = ctx.error
    ∧ (jbAppendBytes ctx op bs).bufused = ctx.bufused
    ∧ (jbAppendBytes ctx op bs).opcode = ctx.opcode
    ∧ ((jbAppendBytes ctx op bs).buf = ctx.buf
        ∨ ∃ g, ctx.growFn = some g
            ∧ g ctx.buf (jbNeeded op bs) = some (jbAppendBytes ctx op bs).buf)
    ∧ (ctx.growFn = none → jbAppendBytes ctx op bs = ctx)
    ∧ jsonbFormatEnd ctx = ctx := by
  have hend : jsonbFormatEnd ctx = ctx := by
    rw [jsonbFormatEnd, if_pos (Or.inl h)]
  by_cases hcap : (ctx.bufused + jbNeeded op bs) % UINT32_MOD > ctx.buf.length
  · cases hgf : ctx.growFn with
    | none =>
      have hgrow : jbAppendGrow ctx (jbNeeded op bs) = { ctx with overrun := true } := by
        rw [jbAppendGrow, if_pos hcap, hgf]
      have hres : jbAppendBytes ctx op bs = { ctx with overrun := true } := by
        simp [jbAppendBytes, hgrow]
      have hctx : ({ ctx with overrun := true } : jsonbContext) = ctx := by
        cases ctx; simp_all
      rw [hres, hctx]
      exact ⟨h, rfl, rfl, rfl, Or.inl rfl, fun _ => rfl, hend⟩
    | some g =>
      cases hga : g ctx.buf (jbNeeded op bs) with
      | none =>
        have hgrow : jbAppendGrow ctx (jbNeeded op bs) = { ctx with overrun := true } := by
          rw [jbAppendGrow, if_pos hcap, hgf]
          simp [hga]
        have hres : jbAppendBytes ctx op bs = { ctx with overrun := true } := by
          simp [jbAppendBytes, hgrow]
        have hctx : ({ ctx with overrun := true } : jsonbContext) = ctx := by
          cases ctx; simp_all
        rw [hres, hctx]
        refine ⟨h, rfl, rfl, rfl, Or.inl rfl, fun hn => rfl, hend⟩
      | some nb =>
        have hgrow : jbAppendGrow ctx (jbNeeded op bs) = { ctx with buf := nb } := by
          rw [jbAppendGrow, if_pos hcap, hgf]
          simp [hga]
        have hres : jbAppendBytes ctx op bs = { ctx with buf := nb } := by
          simp [jbAppendBytes, hgrow, h]
        rw [hres]
        refine ⟨h, rfl, rfl, rfl, Or.inr ⟨g, rfl, by rw [hga]⟩,
          fun hn => absurd hn (by simp), hend⟩
  · have hgrow : jbAppendGrow ctx (jbNeeded op bs) = ctx := by
      rw [jbAppendGrow, if_neg hcap]
    have hres : jbAppendBytes ctx op bs = ctx := by
      simp [jbAppendBytes, hgrow, h]
    rw [hres]
    exact ⟨h, rfl, rfl, rfl, Or.inl rfl, fun _ => rfl, hend⟩

/-- A concrete context with the `overrun` flag set and no grow callback. -/
def overrunCtx : jsonbContext :=
  { overrun := true, error := false, opcode := 0, growFn := none,
    buf := [1, 2], bufused := 2 }

/-- Witness for C7 (amended) at a concrete overrun context. -/
theorem overrun_sticky_witness :
    (jbAppendBytes overrunCtx JSONB_NULL []).bufused = overrunCtx.bufused
    ∧ jsonbFormatEnd overrunCtx = overrunCtx :=
  ⟨(overrun_sticky overrunCtx JSONB_NULL [] rfl).2.2.1,
    (overrun_sticky overrunCtx JSONB_NULL [] rfl).2.2.2.2.2.2⟩

/-!
## Frame shape (claim C6) and frame round-trip (claim C2)
-/

/-- The forbidden byte `x` never occurs in the encoder's output: code bytes
are `c ^^^ x` with `c ∈ 1..255` and data bytes are `ch ^^^ x` with
`ch ≠ 0`, and `a ^^^ x = x` only for `a = 0`. -/
theorem cobsEncodeAux_not_mem (x : Nat) :
    ∀ (s block : List Nat), (∀ b ∈ block, b ≠ x) →
      ∀ b ∈ cobsEncodeAux x block s, b ≠ x := by
  intro s
  induction s with
  | nil =>
    intro block hblock b hb
    rw [show cobsEncodeAux x block []
          = ((block.length + 1) ^^^ x) :: block from rfl] at hb
    rcases List.mem_cons.1 hb with rfl | hb
    · rw [ne_eq, xor_eq_mask_iff]; omega
    · exact hblock b hb
  | cons ch rest ih =>
    intro block hblock b hb
    by_cases hch : ch = 0
    · subst hch
      rw [show cobsEncodeAux x block (0 :: rest)
            = ((block.length + 1) ^^^ x) :: (block ++ cobsEncodeAux x [] rest) from by
          simp [cobsEncodeAux]] at hb
      rcases List.mem_cons.1 hb with rfl | hb
      · rw [ne_eq, xor_eq_mask_iff]; omega
      · rcases List.mem_append.1 hb with hb | hb
        · exact hblock b hb
        · exact ih [] (by simp) b hb
    · by_cases hfull : block.length + 2 = 255
      · rw [show cobsEncodeAux x block (ch :: rest)
              = (255 ^^^ x) :: ((block ++ [ch ^^^ x]) ++ cobsEncodeAux x [] rest) from by
            simp [cobsEncodeAux, hch, hfull]] at hb
        rcases List.mem_cons.1 hb with rfl | hb
        · rw [ne_eq, xor_eq_mask_iff]; omega
        · rcases List.mem_append.1 hb with hb | hb
          · rcases List.mem_append.1 hb with hb | hb
            · exact hblock b hb
            · rw [List.mem_singleton.1 hb, ne_eq, xor_eq_mask_iff]; exact hch
          · exact ih [] (by simp) b hb
      · rw [show cobsEncodeAux x block (ch :: rest)
              = cobsEncodeAux x (block ++ [ch ^^^ x]) rest from by
            simp [cobsEncodeAux, hch, hfull]] at hb
        refine ih (block ++ [ch ^^^ x]) ?_ b hb
        intro b' hb'
        rcases List.mem_append.1 hb' with hb' | hb'
        · exact hblock b' hb'
        · rw [List.mem_singleton.1 hb', ne_eq, xor_eq_mask_iff]; exact hch

/-- Claim-C6 ingredient: no byte of `jbCobsEncode s x` equals `x`. -/
theorem cobsEncode_not_mem (s : List Nat) (x : Nat) :
    ∀ b ∈ jbCobsEncode s x, b ≠ x :=
  cobsEncodeAux_not_mem x s [] (by simp)

/-- COBS encoding-length bound, generalized over the pending block. -/
theorem cobsEncodeAux_length_le (x : Nat) :
    ∀ (s block : List Nat),
      (cobsEncodeAux x block s).length
        ≤ block.length + 1 + s.length + (block.length + s.length) / 254 := by
  intro s
  induction s with
  | nil =>
    intro block
    rw [show cobsEncodeAux x block []
          = ((block.length + 1) ^^^ x) :: block from rfl]
    simp only [List.length_cons, List.length_nil]
    omega
  | cons ch rest ih =>
    intro block
    have hrec0 : (cobsEncodeAux x [] rest).length
        ≤ 1 + rest.length + rest.length / 254 := by
      have h := ih []
      simp only [List.length_nil, Nat.zero_add] at h
      omega
    by_cases hch : ch = 0
    · subst hch
      rw [show cobsEncodeAux x block (0 :: rest)
            = ((block.length + 1) ^^^ x) :: (block ++ cobsEncodeAux x [] rest) from by
          simp [cobsEncodeAux]]
      simp only [List.length_cons, List.length_append]
      have hdiv : rest.length / 254 ≤ (block.length + (rest.length + 1)) / 254 :=
        Nat.div_le_div_right (by omega)
      omega
    · by_cases hfull : block.length + 2 = 255
      · rw [show cobsEncodeAux x block (ch :: rest)
              = (255 ^^^ x) :: ((block ++ [ch ^^^ x]) ++ cobsEncodeAux x [] rest) from by
            simp [cobsEncodeAux, hch, hfull]]
        simp only [List.length_cons, List.length_append, List.length_nil]
        have hdiv : (block.length + (rest.length + 1)) / 254 = rest.length / 254 + 1 := by
          rw [show block.length + (rest.length + 1) = rest.length + 254 from by omega]
          exact Nat.add_div_right _ (by norm_num)
        omega
      · rw [show cobsEncodeAux x block (ch :: rest)
              = cobsEncodeAux x (block ++ [ch ^^^ x]) rest from by
            simp [cobsEncodeAux, hch, hfull]]
        have h := ih (block ++ [ch ^^^ x])
        simp only [List.length_append, List.length_cons, List.length_nil] at h ⊢
        have hdiv : block.length + 0 + 1 + rest.length = block.length + (rest.length + 1) := by
          omega
        rw [hdiv] at h
        omega

/-- Claim-C6 ingredient: `|jbCobsEncode s x| ≤ |s| + |s|/254 + 1`. -/
theorem cobsEncode_length_le (s : List Nat) (x : Nat) :
    (jbCobsEncode s x).length ≤ s.length + s.length / 254 + 1 := by
  have h := cobsEncodeAux_length_le x s []
  simp only [List.length_nil, Nat.zero_add] at h
  rw [jbCobsEncode]
  omega

/-- With `5 ≤ buflen < 2^32` the `uint32_t` subtraction does not wrap. -/
theorem buflenWithoutSig_eq (ctx : jsonbContext) (h5 : 5 ≤ ctx.buf.length)
    (hlt : ctx.buf.length < UINT32_MOD) :
    jbBuflenWithoutSig ctx = ctx.buf.length - 5 := by
  rw [jbBuflenWithoutSig,
    show ctx.buf.length + UINT32_MOD - 5 = (ctx.buf.length - 5) + UINT32_MOD from by
      simp only [UINT32_MOD] at hlt ⊢; omega,
    Nat.add_mod_right]
  exact Nat.mod_eq_of_lt (by simp only [UINT32_MOD] at hlt ⊢; omega)

/-- If the capacity check passes without `uint32_t` wraparound, the encoded
payload fits in `buflen - 5` bytes (with one byte to spare when the
guaranteed-fit bound was positive). -/
theorem enc_fits (ctx : jsonbContext) (h6 : 6 ≤ ctx.buf.length)
    (hlt : ctx.buf.length < UINT32_MOD)
    (hcap : ctx.bufused + jbMaxExpansion ctx ≤ ctx.buf.length - 5) :
    (jbCobsEncode (ctx.buf.take ctx.bufused) JSONB_TERMINATOR).length
      ≤ ctx.buf.length - 5 := by
  have hbws : jbBuflenWithoutSig ctx = ctx.buf.length - 5 :=
    buflenWithoutSig_eq ctx (by omega) hlt
  set n := ctx.buf.length - 5 with hn
  have hlen : (ctx.buf.take ctx.bufused).length ≤ ctx.bufused := by
    simp [List.length_take]
  have hbound := cobsEncode_length_le (ctx.buf.take ctx.bufused) JSONB_TERMINATOR
  rw [jbMaxExpansion, hbws] at hcap
  by_cases hfit : 1 + n / 254 + 1 > n
  · -- guaranteed fit is zero: the check forces an empty payload
    have hfit0 : jbCobsGuaranteedFit n = 0 := by
      rw [jbCobsGuaranteedFit, if_pos hfit]
    rw [hfit0, Nat.sub_zero] at hcap
    have hbu : ctx.bufused = 0 := by omega
    have : (ctx.buf.take ctx.bufused).length = 0 := by
      simp [hbu]
    have hdiv : (ctx.buf.take ctx.bufused).length / 254 = 0 := by
      simp [this]
    omega
  · have hfitpos : jbCobsGuaranteedFit n = n - (1 + n / 254 + 1) := by
      rw [jbCobsGuaranteedFit, if_neg hfit]
    rw [hfitpos] at hcap
    have hsub : n - (n - (1 + n / 254 + 1)) = 1 + n / 254 + 1 := by omega
    rw [hsub] at hcap
    have hdiv : (ctx.buf.take ctx.bufused).length / 254 ≤ n / 254 :=
      Nat.div_le_div_right (by omega)
    omega

/-- On the emit path, `buf[0..bufused)` after `jsonbFormatEnd` is exactly
the frame: header, COBS-encoded payload, trailer, terminator. -/
theorem formatEnd_frame (ctx : jsonbContext)
    (h1 : ctx.overrun = false) (h2 : ctx.error = false)
    (h6 : 6 ≤ ctx.buf.length) (hlt : ctx.buf.length < UINT32_MOD)
    (hcap : ctx.bufused + jbMaxExpansion ctx ≤ ctx.buf.length - 5) :
    (jsonbFormatEnd ctx).buf.take (jsonbFormatEnd ctx).bufused
      = [0x7B, 0x3A] ++ jbCobsEncode (ctx.buf.take ctx.bufused) JSONB_TERMINATOR
          ++ [0x3A, 0x7D, 0x0A] := by
  have hbws : jbBuflenWithoutSig ctx = ctx.buf.length - 5 :=
    buflenWithoutSig_eq ctx (by omega) hlt
  have hmod : (ctx.bufused + jbMaxExpansion ctx) % UINT32_MOD
      = ctx.bufused + jbMaxExpansion ctx :=
    Nat.mod_eq_of_lt (by simp only [UINT32_MOD] at hlt ⊢; omega)
  have hnot : ¬((ctx.bufused + jbMaxExpansion ctx) % UINT32_MOD > jbBuflenWithoutSig ctx) := by
    rw [hmod, hbws]; omega
  rw [jsonbFormatEnd, if_neg (by simp [h1, h2]), if_neg hnot]
  have henc := enc_fits ctx h6 hlt hcap
  set enc := jbCobsEncode (ctx.buf.take ctx.bufused) JSONB_TERMINATOR with hencdef
  set frame := [0x7B, 0x3A] ++ enc ++ [0x3A, 0x7D, JSONB_TERMINATOR] with hframedef
  have hflen : frame.length = enc.length + 5 := by
    simp [hframedef]
  set moved := writeBytes ctx.buf (jbMaxExpansion ctx + 5) (ctx.buf.take ctx.bufused)
    with hmoved
  have hmlen : moved.length = ctx.buf.length := writeBytes_length _ _ _
  have hfits : frame.length ≤ moved.length := by
    rw [hflen, hmlen]; omega
  show (writeBytes moved 0 frame).take frame.length = _
  rw [writeBytes]
  simp only [List.take_zero, List.nil_append, Nat.zero_add]
  rw [List.take_take, Nat.min_eq_left hfits,
    List.take_append_of_le_length (le_refl frame.length), List.take_length]
  rw [hframedef]
  rfl

/-- Dropping all but a suffix of an append yields the suffix. -/
theorem drop_minus_suffix (A B : List Nat) :
    (A ++ B).drop ((A ++ B).length - B.length) = B := by
  rw [show (A ++ B).length - B.length = A.length from by simp]
  exact List.drop_left _ _

/-- Taking all but a suffix of an append yields the prefix. -/
theorem take_minus_suffix (A B : List Nat) :
    (A ++ B).take ((A ++ B).length - B.length) = A := by
  rw [show (A ++ B).length - B.length = A.length from by simp]
  exact List.take_left _ _

/-- Claim C6, counterexample.  With a 5-byte buffer and an empty payload,
`jsonbFormatEnd`'s own checks pass (`jsonbFormatEndOk` is true) and a frame
is emitted, but the terminator byte lands one past the end of the buffer
(in the C, an out-of-bounds store), so `buf[0..bufused)` does not end with
`3A 7D 0A`. -/
theorem frame_wellformed_cex :
    jsonbFormatEndOk (jsonbFormatBegin (List.replicate 5 0) none) = true
    ∧ ¬(((jsonbFormatEnd (jsonbFormatBegin (List.replicate 5 0) none)).buf.take
          (jsonbFormatEnd (jsonbFormatBegin (List.replicate 5 0) none)).bufused).drop
        (((jsonbFormatEnd (jsonbFormatBegin (List.replicate 5 0) none)).buf.take
          (jsonbFormatEnd (jsonbFormatBegin (List.replicate 5 0) none)).bufused).length - 3)
      = [0x3A, 0x7D, 0x0A]) := by decide

/-- Claim C6, amended.  For every context with `6 ≤ buflen < 2^32` whose
capacity check passes without `uint32_t` wraparound, a successful
`jsonbFormatEnd` leaves `buf[0..bufused)` beginning with `7B 3A`, ending
with `3A 7D 0A`, and containing no `0x0A` byte before the final one. -/
theorem frame_wellformed (ctx : jsonbContext)
    (hok : jsonbFormatEndOk ctx = true)
    (h6 : 6 ≤ ctx.buf.length) (hlt : ctx.buf.length < UINT32_MOD)
    (hnw : ctx.bufused + jbMaxExpansion ctx ≤ ctx.buf.length - 5) :
    ((jsonbFormatEnd ctx).buf.take (jsonbFormatEnd ctx).bufused).take 2 = [0x7B, 0x3A]
    ∧ ((jsonbFormatEnd ctx).buf.take (jsonbFormatEnd ctx).bufused).drop
        (((jsonbFormatEnd ctx).buf.take (jsonbFormatEnd ctx).bufused).length - 3)
      = [0x3A, 0x7D, 0x0A]
    ∧ ∀ b ∈ ((jsonbFormatEnd ctx).buf.take (jsonbFormatEnd ctx).bufused).take
          (((jsonbFormatEnd ctx).buf.take (jsonbFormatEnd ctx).bufused).length - 1),
        b ≠ 0x0A := by
  have hflags : ctx.overrun = false ∧ ctx.error = false := by
    simp only [jsonbFormatEndOk, Bool.and_eq_true, Bool.not_eq_true'] at hok
    exact ⟨hok.1.1, hok.1.2⟩
  have hF := formatEnd_frame ctx hflags.1 hflags.2 h6 hlt hnw
  rw [hF]
  set enc := jbCobsEncode (ctx.buf.take ctx.bufused) JSONB_TERMINATOR with hencdef
  refine ⟨rfl, ?_, ?_⟩
  · have hd := drop_minus_suffix ([0x7B, 0x3A] ++ enc) [0x3A, 0x7D, 0x0A]
    simp at hd ⊢
  · have ht := take_minus_suffix ([0x7B, 0x3A] ++ enc ++ [0x3A, 0x7D]) [0x0A]
    have ht' : ([0x7B, 0x3A] ++ enc ++ [0x3A, 0x7D, 0x0A]).take
        (([0x7B, 0x3A] ++ enc ++ [0x3A, 0x7D, 0x0A]).length - 1)
        = [0x7B, 0x3A] ++ enc ++ [0x3A, 0x7D] := by
      simpa using ht
    rw [ht']
    intro b hb
    rcases List.mem_append.1 hb with hb | hb
    · rcases List.mem_append.1 hb with hb | hb
      · rcases List.mem_cons.1 hb with rfl | hb
        · decide
        · rcases List.mem_singleton.1 hb with rfl
          decide
      · exact cobsEncode_not_mem _ _ b hb
    · rcases List.mem_cons.1 hb with rfl | hb
      · decide
      · rcases List.mem_singleton.1 hb with rfl
        decide

/-- Witness for C6 (amended) at a concrete context. -/
theorem frame_wellformed_witness :
    ((jsonbFormatEnd (jsonbAddObjectEnd (jsonbAddObjectBegin
          (jsonbFormatBegin (List.replicate 16 0) none)))).buf.take
        (jsonbFormatEnd (jsonbAddObjectEnd (jsonbAddObjectBegin
          (jsonbFormatBegin (List.replicate 16 0) none)))).bufused).take 2
      = [0x7B, 0x3A] :=
  (frame_wellformed
    (jsonbAddObjectEnd (jsonbAddObjectBegin (jsonbFormatBegin (List.replicate 16 0) none)))
    (by decide) (by decide) (by decide) (by decide)).1

/-- `jsonbParse` on a well-shaped frame (no trailing terminator required):
the single trailing `0x0A` case is `jsonbParse_frame` below. -/
theorem jsonbParse_frame_noterm (e : List Nat) :
    jsonbParse ([0x7B, 0x3A] ++ e ++ [0x3A, 0x7D])
      = some { overrun := false, error := false, opcode := 0, growFn := none,
               buf := jbCobsDecode e JSONB_TERMINATOR, bufused := 0 } := by
  have hb1 : ([0x7B, 0x3A] ++ e ++ [0x3A, 0x7D]).dropWhile (fun b => b < 0x20)
      = [0x7B, 0x3A] ++ e ++ [0x3A, 0x7D] := by
    rw [show [0x7B, 0x3A] ++ e ++ [0x3A, 0x7D]
          = 0x7B :: ([0x3A] ++ e ++ [0x3A, 0x7D]) from rfl,
      List.dropWhile_cons]
    norm_num
  have hb2rev : ([0x7B, 0x3A] ++ e ++ [0x3A, 0x7D]).reverse
      = 0x7D :: 0x3A :: (e.reverse ++ [0x3A, 0x7B]) := by
    simp
  have hb2drop : (0x7D :: 0x3A :: (e.reverse ++ [0x3A, 0x7B])).dropWhile (fun b => b < 0x20)
      = 0x7D :: 0x3A :: (e.reverse ++ [0x3A, 0x7B]) := by
    rw [List.dropWhile_cons]
    norm_num
  have hb2 : ((([0x7B, 0x3A] ++ e ++ [0x3A, 0x7D]).dropWhile
        (fun b => b < 0x20)).reverse.dropWhile (fun b => b < 0x20)).reverse
      = [0x7B, 0x3A] ++ e ++ [0x3A, 0x7D] := by
    rw [hb1, hb2rev, hb2drop, ← hb2rev, List.reverse_reverse]
  simp only [jsonbParse, hb2]
  rw [if_neg (by simp), if_pos ⟨by simp, rfl⟩]
  have hb3 : ([0x7B, 0x3A] ++ e ++ [0x3A, 0x7D]).drop 2 = e ++ [0x3A, 0x7D] := rfl
  have hlen2 : (e ++ [0x3A, 0x7D]).length - 2 = e.length := by simp
  have hcond : 2 ≤ (e ++ [0x3A, 0x7D]).length ∧
      (e ++ [0x3A, 0x7D]).drop ((e ++ [0x3A, 0x7D]).length - 2) = [0x3A, 0x7D] :=
    ⟨by simp, by rw [hlen2, List.drop_left]⟩
  rw [hb3, if_pos hcond, hlen2, List.take_left]

/-- `jsonbParse` accepts `"{:" ‖ e ‖ ":}" ‖ '\n'` and returns the COBS
decode of `e` (the trailing terminator is trimmed as a control byte). -/
theorem jsonbParse_frame (e : List Nat) :
    jsonbParse ([0x7B, 0x3A] ++ e ++ [0x3A, 0x7D, 0x0A])
      = some { overrun := false, error := false, opcode := 0, growFn := none,
               buf := jbCobsDecode e JSONB_TERMINATOR, bufused := 0 } := by
  have hb1 : ([0x7B, 0x3A] ++ e ++ [0x3A, 0x7D, 0x0A]).dropWhile (fun b => b < 0x20)
      = [0x7B, 0x3A] ++ e ++ [0x3A, 0x7D, 0x0A] := by
    rw [show [0x7B, 0x3A] ++ e ++ [0x3A, 0x7D, 0x0A]
          = 0x7B :: ([0x3A] ++ e ++ [0x3A, 0x7D, 0x0A]) from rfl,
      List.dropWhile_cons]
    norm_num
  have hb2rev : ([0x7B, 0x3A] ++ e ++ [0x3A, 0x7D, 0x0A]).reverse
      = 0x0A :: 0x7D :: 0x3A :: (e.reverse ++ [0x3A, 0x7B]) := by
    simp
  have hb2drop : (0x0A :: 0x7D :: 0x3A :: (e.reverse ++ [0x3A, 0x7B])).dropWhile
        (fun b => b < 0x20)
      = 0x7D :: 0x3A :: (e.reverse ++ [0x3A, 0x7B]) := by
    norm_num [List.dropWhile_cons]
  have hrev2 : (0x7D :: 0x3A :: (e.reverse ++ [0x3A, 0x7B])).reverse
      = [0x7B, 0x3A] ++ e ++ [0x3A, 0x7D] := by
    simp
  have hb2 : ((([0x7B, 0x3A] ++ e ++ [0x3A, 0x7D, 0x0A]).dropWhile
        (fun b => b < 0x20)).reverse.dropWhile (fun b => b < 0x20)).reverse
      = [0x7B, 0x3A] ++ e ++ [0x3A, 0x7D] := by
    rw [hb1, hb2rev, hb2drop, hrev2]
  simp only [jsonbParse, hb2]
  rw [if_neg (by simp), if_pos ⟨by simp, rfl⟩]
  have hb3 : ([0x7B, 0x3A] ++ e ++ [0x3A, 0x7D]).drop 2 = e ++ [0x3A, 0x7D] := rfl
  have hlen2 : (e ++ [0x3A, 0x7D]).length - 2 = e.length := by simp
  have hcond : 2 ≤ (e ++ [0x3A, 0x7D]).length ∧
      (e ++ [0x3A, 0x7D]).drop ((e ++ [0x3A, 0x7D]).length - 2) = [0x3A, 0x7D] :=
    ⟨by simp, by rw [hlen2, List.drop_left]⟩
  rw [hb3, if_pos hcond, hlen2, List.take_left]

/-- `writeBytes` with nothing to write leaves the buffer unchanged. -/
theorem writeBytes_nil (buf : List Nat) (i : Nat) : writeBytes buf i [] = buf := by
  rw [writeBytes]
  simp

/-- Claim C2, counterexample.  A 4-byte buffer holding the one-byte payload
`20` (one `jsonbAddNull` append) passes `jsonbFormatEnd`'s capacity check —
`buflen - siglen` wraps around in `uint32_t` — yet `jsonbParse` rejects the
resulting `buf[0..bufused)`, so the frame round-trip fails. -/
theorem frame_roundtrip_cex :
    (applyAppends (jsonbFormatBegin (List.replicate 4 0) none) [(0x20, [])]).overrun = false
    ∧ (applyAppends (jsonbFormatBegin (List.replicate 4 0) none) [(0x20, [])]).error = false
    ∧ jsonbFormatEndOk (applyAppends (jsonbFormatBegin (List.replicate 4 0) none)
        [(0x20, [])]) = true
    ∧ ¬((jsonbParse ((jsonbFormatEnd (applyAppends (jsonbFormatBegin (List.replicate 4 0) none)
            [(0x20, [])])).buf.take
          (jsonbFormatEnd (applyAppends (jsonbFormatBegin (List.replicate 4 0) none)
            [(0x20, [])])).bufused)).map jsonbContext.buf
        = some ((applyAppends (jsonbFormatBegin (List.replicate 4 0) none)
            [(0x20, [])]).buf.take
          (applyAppends (jsonbFormatBegin (List.replicate 4 0) none)
            [(0x20, [])]).bufused)) := by decide

/-- Boundary case of the frame round-trip: a 5-byte buffer leaves no room
for a payload, the check then forces `bufused = 0`, and the emitted
(truncated) frame still parses back to the empty payload. -/
theorem formatEnd_len5 (ctx : jsonbContext) (h1 : ctx.overrun = false)
    (h2 : ctx.error = false) (h5 : ctx.buf.length = 5) (hbu : ctx.bufused = 0) :
    (jsonbFormatEnd ctx).buf.take (jsonbFormatEnd ctx).bufused
      = [0x7B, 0x3A, 0x0B, 0x3A, 0x7D] := by
  have hbws : jbBuflenWithoutSig ctx = 0 := by
    rw [jbBuflenWithoutSig, h5]
    decide
  have hmE : jbMaxExpansion ctx = 0 := by
    rw [jbMaxExpansion, hbws]
    decide
  rw [jsonbFormatEnd, if_neg (by simp [h1, h2]),
    if_neg (by rw [hbws, hbu, hmE]; simp)]
  show (writeBytes (writeBytes ctx.buf (jbMaxExpansion ctx + 5) (ctx.buf.take ctx.bufused)) 0
      ([0x7B, 0x3A] ++ jbCobsEncode (ctx.buf.take ctx.bufused) JSONB_TERMINATOR
        ++ [0x3A, 0x7D, JSONB_TERMINATOR])).take
    ([0x7B, 0x3A] ++ jbCobsEncode (ctx.buf.take ctx.bufused) JSONB_TERMINATOR
        ++ [0x3A, 0x7D, JSONB_TERMINATOR]).length = _
  rw [hbu, List.take_zero, writeBytes_nil,
    show jbCobsEncode [] JSONB_TERMINATOR = [0x0B] from rfl]
  rw [writeBytes]
  simp only [List.take_zero, List.nil_append, Nat.zero_add]
  rw [show ([0x7B, 0x3A] ++ [0x0B] ++ [0x3A, 0x7D, JSONB_TERMINATOR] : List Nat).length
      = 6 from rfl]
  rw [List.drop_eq_nil_of_le (by omega), List.append_nil, h5]
  rfl

/-- Claim C2, amended.  For every sequence of formatter appends on a
context started with `jsonbFormatBegin` whose final state has `overrun`
and `error` clear, a buffer with `5 ≤ buflen < 2^32`, and a capacity check
that passes without `uint32_t` wraparound, `jsonbParse` of
`buf[0..bufused)` after `jsonbFormatEnd` succeeds and returns a parser
context whose payload `buf[0..buflen)` equals the formatted payload. -/
theorem frame_roundtrip (buf0 : List Nat) (g : Option GrowFn)
    (ops : List (Nat × List Nat)) (ctx : jsonbContext)
    (_hctx : ctx = applyAppends (jsonbFormatBegin buf0 g) ops)
    (hover : ctx.overrun = false) (herr : ctx.error = false)
    (h5 : 5 ≤ ctx.buf.length) (hlt : ctx.buf.length < UINT32_MOD)
    (hcap : ctx.bufused + jbMaxExpansion ctx ≤ ctx.buf.length - 5) :
    (jsonbParse ((jsonbFormatEnd ctx).buf.take (jsonbFormatEnd ctx).bufused)).map
        jsonbContext.buf
      = some (ctx.buf.take ctx.bufused) := by
  by_cases h6 : 6 ≤ ctx.buf.length
  · rw [formatEnd_frame ctx hover herr h6 hlt hcap, jsonbParse_frame]
    simp only [Option.map_some']
    exact congrArg some (jbCobsDecode_jbCobsEncode _ _)
  · have h5eq : ctx.buf.length = 5 := by omega
    have hbws : jbBuflenWithoutSig ctx = 0 := by
      rw [jbBuflenWithoutSig, h5eq]
      decide
    have hmE : jbMaxExpansion ctx = 0 := by
      rw [jbMaxExpansion, hbws]
      decide
    have hbu : ctx.bufused = 0 := by
      rw [hmE] at hcap
      omega
    rw [formatEnd_len5 ctx hover herr h5eq hbu,
      show ([0x7B, 0x3A, 0x0B, 0x3A, 0x7D] : List Nat)
        = [0x7B, 0x3A] ++ [0x0B] ++ [0x3A, 0x7D] from rfl,
      jsonbParse_frame_noterm]
    simp only [Option.map_some']
    rw [hbu, List.take_zero]
    rfl

/-- Witness for C2 (amended): the empty-object pipeline round-trips. -/
theorem frame_roundtrip_witness :
    (jsonbParse ((jsonbFormatEnd (applyAppends
          (jsonbFormatBegin (List.replicate 16 0) none) [(0x10, []), (0x11, [])])).buf.take
        (jsonbFormatEnd (applyAppends
          (jsonbFormatBegin (List.replicate 16 0) none) [(0x10, []), (0x11, [])])).bufused)).map
        jsonbContext.buf
      = some ((applyAppends (jsonbFormatBegin (List.replicate 16 0) none)
          [(0x10, []), (0x11, [])]).buf.take
        (applyAppends (jsonbFormatBegin (List.replicate 16 0) none)
          [(0x10, []), (0x11, [])]).bufused) :=
  frame_roundtrip (List.replicate 16 0) none [(0x10, []), (0x11, [])] _ rfl
    (by decide) (by decide) (by decide) (by decide) (by decide)

/-!
## Parser / enumerator and typed getters (claims C4, C8, C10)

`jsonbEnumNext` walks the decoded payload.  Reads the C performs at
indices `≥ buflen` — possible for the BIN8/16/24/32 length bytes and for
the value opcode after an `ITEM` name ending the buffer — are modelled as
the explicit outcome `EnumStep.oob`; `EnumStep.done` is `return false`.

The `double` values the getters produce are modelled as exact rationals:
`floatBitsToRat` decodes a little-endian IEEE-754 bit pattern (NaN and
the infinities, which no claim touches, are modelled as 0), and the
`(float)` narrowing cast is `f32Round`, round-to-nearest-even at 24 bits
of significand (subnormal below `2^-126`).
-/

/-- Outcome of one `jsonbEnumNext` call (src/jsonb.c:357). -/
inductive EnumStep where
  | done : EnumStep
  | oob : EnumStep
  | next (ctx : jsonbContext) (first : Bool) (op : Nat) (item : Option (List Nat))
      (vpos : Nat) : EnumStep

def EnumStep.isOob : EnumStep → Bool
  | .oob => true
  | _ => false

def EnumStep.isDone : EnumStep → Bool
  | .done => true
  | _ => false

/-- `jsonbEnum` (src/jsonb.c:350): reset the cursor and last opcode. -/
def jsonbEnum (ctx : jsonbContext) : jsonbContext :=
  { ctx with bufused := 0, opcode := JSONB_INVALID }

/-- A value whose payload is `len` fixed bytes starting at `u`. -/
def jbEnumFixed (ctx : jsonbContext) (first : Bool) (item : Option (List Nat))
    (op u len : Nat) : EnumStep :=
  .next { ctx with bufused := u + len, opcode := op } first op item u

/-- A BINk value: read `k` little-endian length bytes at `u` — out of
bounds when fewer than `k` bytes remain — then skip that many bytes. -/
def jbEnumBin (ctx : jsonbContext) (first : Bool) (item : Option (List Nat))
    (op u k : Nat) : EnumStep :=
  if u + k ≤ ctx.buf.length then
    .next { ctx with bufused := u + k + leNat ((ctx.buf.drop u).take k), opcode := op }
      first op item (u + k)
  else .oob

/-- The value-opcode switch of `jsonbEnumNext` (src/jsonb.c:391), with the
cursor `u` just past the value opcode `op`.  `FLOAT`/`DOUBLE` use the
lengths 8 and 16 the C assigns (not the 4 and 8 bytes the formatter
writes). -/
def jbEnumValue (ctx : jsonbContext) (first : Bool) (item : Option (List Nat))
    (op u : Nat) : EnumStep :=
  if op = JSONB_BEGIN_OBJECT ∨ op = JSONB_END_OBJECT ∨ op = JSONB_BEGIN_ARRAY
      ∨ op = JSONB_END_ARRAY ∨ op = JSONB_NULL ∨ op = JSONB_TRUE ∨ op = JSONB_FALSE then
    jbEnumFixed ctx first item op u 0
  else if op = JSONB_STRING then
    match (ctx.buf.drop u).findIdx? (fun b => b = 0) with
    | none => .done
    | some i => jbEnumFixed ctx first item op u (i + 1)
  else if op = JSONB_BIN8 then jbEnumBin ctx first item op u 1
  else if op = JSONB_BIN16 then jbEnumBin ctx first item op u 2
  else if op = JSONB_BIN24 then jbEnumBin ctx first item op u 3
  else if op = JSONB_BIN32 then jbEnumBin ctx first item op u 4
  else if op = JSONB_INT8 then jbEnumFixed ctx first item op u 1
  else if op = JSONB_INT16 then jbEnumFixed ctx first item op u 2
  else if op = JSONB_INT32 then jbEnumFixed ctx first item op u 4
  else if op = JSONB_INT64 then jbEnumFixed ctx first item op u 8
  else if op = JSONB_UINT8 then jbEnumFixed ctx first item op u 1
  else if op = JSONB_UINT16 then jbEnumFixed ctx first item op u 2
  else if op = JSONB_UINT32 then jbEnumFixed ctx first item op u 4
  else if op = JSONB_UINT64 then jbEnumFixed ctx first item op u 8
  else if op = JSONB_FLOAT then jbEnumFixed ctx first item op u 8
  else if op = JSONB_DOUBLE then jbEnumFixed ctx first item op u 16
  else .done

/-- `jsonbEnumNext` (src/jsonb.c:357).  At end of stream return `done`;
read the opcode byte; for `ITEM`, scan the remaining buffer for the name's
NUL (no NUL: `done`), then read the value opcode — out of bounds when the
NUL was the last byte — and dispatch on it. -/
def jsonbEnumNext (ctx : jsonbContext) : EnumStep :=
  if ctx.bufused ≥ ctx.buf.length then .done
  else
    let first := ctx.opcode == JSONB_BEGIN_OBJECT || ctx.opcode == JSONB_BEGIN_ARRAY
      || ctx.opcode == JSONB_INVALID
    let op0 := ctx.buf.getD ctx.bufused 0
    let u0 := ctx.bufused + 1
    if op0 = JSONB_ITEM then
      match (ctx.buf.drop u0).findIdx? (fun b => b = 0) with
      | none => .done
      | some i =>
        let u1 := u0 + (i + 1)
        if u1 < ctx.buf.length then
          jbEnumValue ctx first (some ((ctx.buf.drop u0).take i)) (ctx.buf.getD u1 0) (u1 + 1)
        else .oob
    else
      jbEnumValue ctx first none op0 u0

/-- The `jsonbGetObjectItem` loop (src/jsonb.c:484): enumerate keeping an
object-nesting counter; stop with "not found" when the outer object closes
or the stream ends; yield `(opcode, value-position)` for the first direct
child (`nesting = 1`) whose name matches byte-exactly.  `none` marks an
enumeration step that read out of bounds (undefined behavior in C); the
fuel argument only bounds the loop — every `next` step advances the
cursor, so `buf.length + 2` can never be exhausted. -/
def jbGetItemLoop (name : List Nat) : Nat → jsonbContext → Int → Option (Option (Nat × Nat))
  | 0, _, _ => none
  | fuel + 1, ctx, nesting =>
    match jsonbEnumNext ctx with
    | .done => some none
    | .oob => none
    | .next ctx' _ op item vpos =>
      let nesting' := if op = JSONB_BEGIN_OBJECT then nesting + 1
        else if op = JSONB_END_OBJECT then nesting - 1 else nesting
      if nesting' = 0 then some none
      else if nesting' ≠ 1 then jbGetItemLoop name fuel ctx' nesting'
      else
        match item with
        | some key =>
          if key = name then some (some (op, vpos))
          else jbGetItemLoop name fuel ctx' nesting'
        | none => jbGetItemLoop name fuel ctx' nesting'

/-- `jsonbGetObjectItem` (src/jsonb.c:477): `some (some (t, v))` = found,
`some none` = returns false, `none` = the scan read out of bounds. -/
def jsonbGetObjectItem (ctx : jsonbContext) (name : List Nat) : Option (Option (Nat × Nat)) :=
  jbGetItemLoop name (ctx.buf.length + 2) (jsonbEnum ctx) 0

/-- Little-endian bytes reinterpreted as a `k`-byte two's-complement
signed integer (the `memcpy` into `intK_t` in the getters). -/
def sextLe (k : Nat) (bs : List Nat) : Int :=
  let v := leNat bs
  if v < 2 ^ (8 * k - 1) then (v : Int) else (v : Int) - 2 ^ (8 * k)

/-- Exact value of a little-endian IEEE-754 bit pattern with `ebits`
exponent bits and `mbits` significand bits, as a rational.  NaN and the
infinities are modelled as 0 (no claim exercises them). -/
def floatBitsToRat (ebits mbits : Nat) (bs : List Nat) : ℚ :=
  let bits := leNat bs
  let m := bits % 2 ^ mbits
  let e := bits / 2 ^ mbits % 2 ^ ebits
  let sign : ℚ := if bits / 2 ^ (mbits + ebits) % 2 = 1 then -1 else 1
  let bias := 2 ^ (ebits - 1) - 1
  if e = 2 ^ ebits - 1 then 0
  else if e = 0 then sign * m * 2 / (2 : ℚ) ^ (bias + mbits)
  else sign * ((2 : ℚ) ^ mbits + m) * (2 : ℚ) ^ e / (2 : ℚ) ^ (bias + mbits)

def float32ToRat (bs : List Nat) : ℚ := floatBitsToRat 8 23 bs

def float64ToRat (bs : List Nat) : ℚ := floatBitsToRat 11 52 bs

/-- Truncation toward zero: the C `(int64_t) v` cast of a floating value. -/
def ratTrunc (q : ℚ) : Int := if 0 ≤ q then ⌊q⌋ else ⌈q⌉

/-- Round half to even, toward the nearest integer. -/
def rhalfEven (q : ℚ) : Int :=
  if q - ⌊q⌋ < 1 / 2 then ⌊q⌋
  else if q - ⌊q⌋ > 1 / 2 then ⌊q⌋ + 1
  else if ⌊q⌋ % 2 = 0 then ⌊q⌋ else ⌊q⌋ + 1

/-- The `(float)` narrowing cast of a double value: round to nearest-even
at 24 significand bits, with the subnormal range below `2^-126`. -/
def f32Round (q : ℚ) : ℚ :=
  if q = 0 then 0
  else
    let scale : Int := 23 - max (Int.log 2 |q|) (-126)
    (rhalfEven (q * (2 : ℚ) ^ scale) : ℚ) * (2 : ℚ) ^ (-scale)

/-- `jsonbGetBool` (src/jsonb.c:513): `true` iff the item is found with
type `JSONB_TRUE`; `false` otherwise, including a lookup miss. -/
def jsonbGetBool (ctx : jsonbContext) (name : List Nat) : Option Bool :=
  match jsonbGetObjectItem ctx name with
  | none => none
  | some none => some false
  | some (some (t, _)) => some (t == JSONB_TRUE)

/-- `jsonbGetString` (src/jsonb.c:527): the NUL-terminated bytes at the
value position when the type is `STRING`; the empty string otherwise. -/
def jsonbGetString (ctx : jsonbContext) (name : List Nat) : Option (List Nat) :=
  match jsonbGetObjectItem ctx name with
  | none => none
  | some none => some []
  | some (some (t, v)) =>
    if t = JSONB_STRING then some ((ctx.buf.drop v).takeWhile (fun b => b ≠ 0))
    else some []

/-- `jsonbGetErr` (src/jsonb.c:541): `jsonbGetString ctx "err"`. -/
def jsonbGetErr (ctx : jsonbContext) : Option (List Nat) :=
  jsonbGetString ctx [101, 114, 114]

/-- `jsonbGetDouble` (src/jsonb.c:553): widen any numeric type to double
(modelled exactly over `ℚ`); 0 on a miss or non-numeric type. -/
def jsonbGetDouble (ctx : jsonbContext) (name : List Nat) : Option ℚ :=
  match jsonbGetObjectItem ctx name with
  | none => none
  | some none => some 0
  | some (some (t, v)) =>
    some (
      if t = JSONB_FLOAT then float32ToRat ((ctx.buf.drop v).take 4)
      else if t = JSONB_DOUBLE then float64ToRat ((ctx.buf.drop v).take 8)
      else if t = JSONB_UINT8 then (leNat ((ctx.buf.drop v).take 1) : ℚ)
      else if t = JSONB_UINT16 then (leNat ((ctx.buf.drop v).take 2) : ℚ)
      else if t = JSONB_UINT32 then (leNat ((ctx.buf.drop v).take 4) : ℚ)
      else if t = JSONB_UINT64 then (leNat ((ctx.buf.drop v).take 8) : ℚ)
      else if t = JSONB_INT8 then (sextLe 1 ((ctx.buf.drop v).take 1) : ℚ)
      else if t = JSONB_INT16 then (sextLe 2 ((ctx.buf.drop v).take 2) : ℚ)
      else if t = JSONB_INT32 then (sextLe 4 ((ctx.buf.drop v).take 4) : ℚ)
      else if t = JSONB_INT64 then (sextLe 8 ((ctx.buf.drop v).take 8) : ℚ)
      else 0)

/-- `jsonbGetFloat` (src/jsonb.c:547): `(float) jsonbGetDouble(...)`. -/
def jsonbGetFloat (ctx : jsonbContext) (name : List Nat) : Option ℚ :=
  (jsonbGetDouble ctx name).map f32Round

/-- `jsonbGetInt64` (src/jsonb.c:635): reinterpret the value at its native
width and cast to signed 64-bit; floats truncate toward zero; 0 on a miss
or non-numeric type. -/
def jsonbGetInt64 (ctx : jsonbContext) (name : List Nat) : Option Int :=
  match jsonbGetObjectItem ctx name with
  | none => none
  | some none => some 0
  | some (some (t, v)) =>
    some (
      if t = JSONB_FLOAT then ratTrunc (float32ToRat ((ctx.buf.drop v).take 4))
      else if t = JSONB_DOUBLE then ratTrunc (float64ToRat ((ctx.buf.drop v).take 8))
      else if t = JSONB_UINT8 then (leNat ((ctx.buf.drop v).take 1) : Int)
      else if t = JSONB_UINT16 then (leNat ((ctx.buf.drop v).take 2) : Int)
      else if t = JSONB_UINT32 then (leNat ((ctx.buf.drop v).take 4) : Int)
      else if t = JSONB_UINT64 then (leNat ((ctx.buf.drop v).take 8) : Int)
      else if t = JSONB_INT8 then sextLe 1 ((ctx.buf.drop v).take 1)
      else if t = JSONB_INT16 then sextLe 2 ((ctx.buf.drop v).take 2)
      else if t = JSONB_INT32 then sextLe 4 ((ctx.buf.drop v).take 4)
      else if t = JSONB_INT64 then sextLe 8 ((ctx.buf.drop v).take 8)
      else 0)

/-- The `(int32_t)` cast of a 64-bit value. -/
def i32Cast (z : Int) : Int :=
  let m := z.emod (2 ^ 32)
  if m < 2 ^ 31 then m else m - 2 ^ 32

/-- `jsonbGetInt32` (src/jsonb.c:629): `(int32_t) jsonbGetInt64(...)`. -/
def jsonbGetInt32 (ctx : jsonbContext) (name : List Nat) : Option Int :=
  (jsonbGetInt64 ctx name).map i32Cast

/-- `jsonbGetUint64` (src/jsonb.c:717): like `jsonbGetInt64` with an
unsigned 64-bit target; signed sources wrap two's-complement (the C
`(uint64_t)` conversion); a negative floating value is undefined behavior
in C and modelled as the same wrap. -/
def jsonbGetUint64 (ctx : jsonbContext) (name : List Nat) : Option Nat :=
  match jsonbGetObjectItem ctx name with
  | none => none
  | some none => some 0
  | some (some (t, v)) =>
    some (
      if t = JSONB_FLOAT then
        ((ratTrunc (float32ToRat ((ctx.buf.drop v).take 4))).emod (2 ^ 64)).toNat
      else if t = JSONB_DOUBLE then
        ((ratTrunc (float64ToRat ((ctx.buf.drop v).take 8))).emod (2 ^ 64)).toNat
      else if t = JSONB_UINT8 then leNat ((ctx.buf.drop v).take 1)
      else if t = JSONB_UINT16 then leNat ((ctx.buf.drop v).take 2)
      else if t = JSONB_UINT32 then leNat ((ctx.buf.drop v).take 4)
      else if t = JSONB_UINT64 then leNat ((ctx.buf.drop v).take 8)
      else if t = JSONB_INT8 then ((sextLe 1 ((ctx.buf.drop v).take 1)).emod (2 ^ 64)).toNat
      else if t = JSONB_INT16 then ((sextLe 2 ((ctx.buf.drop v).take 2)).emod (2 ^ 64)).toNat
      else if t = JSONB_INT32 then ((sextLe 4 ((ctx.buf.drop v).take 4)).emod (2 ^ 64)).toNat
      else if t = JSONB_INT64 then ((sextLe 8 ((ctx.buf.drop v).take 8)).emod (2 ^ 64)).toNat
      else 0)

/-- `jsonbGetUint32` (src/jsonb.c:711): `(uint32_t) jsonbGetUint64(...)`. -/
def jsonbGetUint32 (ctx : jsonbContext) (name : List Nat) : Option Nat :=
  (jsonbGetUint64 ctx name).map (· % 2 ^ 32)

/-- Claim C10.  A parsed payload can end in a bare BIN8/16/24/32 opcode —
`jsonbParse` of a valid frame produces the one-byte payload `52` — and
`jsonbEnumNext` then reads its length bytes from indices at or beyond
`buflen` (`EnumStep.oob`) instead of returning false, while a truncated
item name (`30 6B` with no NUL) and a truncated string (`40 68` with no
NUL) are detected and make it return false (`EnumStep.done`). -/
theorem enumNext_truncated_bin_oob :
    (jsonbParse [0x7B, 0x3A, 0x08, 0x58, 0x3A, 0x7D, 0x0A]).map jsonbContext.buf
      = some [0x52]
    ∧ (jsonbEnumNext ⟨false, false, 0, none, [0x51], 0⟩).isOob = true
    ∧ (jsonbEnumNext ⟨false, false, 0, none, [0x52], 0⟩).isOob = true
    ∧ (jsonbEnumNext ⟨false, false, 0, none, [0x53], 0⟩).isOob = true
    ∧ (jsonbEnumNext ⟨false, false, 0, none, [0x54], 0⟩).isOob = true
    ∧ (jsonbEnumNext ⟨false, false, 0, none, [0x30, 0x6B], 0⟩).isDone = true
    ∧ (jsonbEnumNext ⟨false, false, 0, none, [0x40, 0x68], 0⟩).isDone = true := by
  decide

/-- Claim C4 (code bug).  `jsonbAddInt64ToObject` takes `int64_t`, but
`jsonbAddInt64`'s parameter in src/jsonb.c:145 is `uint32_t` (the header
declares `int64_t`), so the value is truncated to 32 bits at that call and
the upper four appended bytes are never defined.  Writing `v = -1` under
the name `k` and reading it back yields `4294967295`, not the
sign-extension `-1` the claim requires. -/
theorem addInt64_not_sign_extended :
    ((jsonbParse ((jsonbFormatEnd (jsonbAddObjectEnd (jsonbAddInt64ToObject
            (jsonbAddObjectBegin (jsonbFormatBegin (List.replicate 64 0) none))
            [0x6B] (-1)))).buf.take
          (jsonbFormatEnd (jsonbAddObjectEnd (jsonbAddInt64ToObject
            (jsonbAddObjectBegin (jsonbFormatBegin (List.replicate 64 0) none))
            [0x6B] (-1)))).bufused)).map
        (fun c => jsonbGetInt64 c [0x6B]))
      = some (some 4294967295)
    ∧ (4294967295 : Int) ≠ -1 := by decide

/-- Claim C8.  On a lookup miss each typed getter returns its type's zero
value, and `jsonbGetBool` returns true exactly when the named item exists
with type `JSONB_TRUE` (`some` wraps every result: `none` would mark an
enumeration that read out of bounds, which a returned lookup never does). -/
theorem getters_zero_on_miss (ctx : jsonbContext) (name : List Nat) :
    (jsonbGetObjectItem ctx name = some none →
      jsonbGetInt64 ctx name = some 0 ∧ jsonbGetInt32 ctx name = some 0
      ∧ jsonbGetUint64 ctx name = some 0 ∧ jsonbGetUint32 ctx name = some 0
      ∧ jsonbGetDouble ctx name = some 0 ∧ jsonbGetFloat ctx name = some 0
      ∧ jsonbGetString ctx name = some [] ∧ jsonbGetBool ctx name = some false)
    ∧ (jsonbGetBool ctx name = some true
        ↔ ∃ v, jsonbGetObjectItem ctx name = some (some (JSONB_TRUE, v))) := by
  constructor
  · intro hmiss
    refine ⟨?_, ?_, ?_, ?_, ?_, ?_, ?_, ?_⟩
    · simp [jsonbGetInt64, hmiss]
    · simp [jsonbGetInt32, jsonbGetInt64, hmiss, i32Cast]
      decide
    · simp [jsonbGetUint64, hmiss]
    · simp [jsonbGetUint32, jsonbGetUint64, hmiss]
    · simp [jsonbGetDouble, hmiss]
    · simp [jsonbGetFloat, jsonbGetDouble, hmiss, f32Round]
    · simp [jsonbGetString, hmiss]
    · simp [jsonbGetBool, hmiss]
  · cases hres : jsonbGetObjectItem ctx name with
    | none => simp [jsonbGetBool, hres]
    | some o =>
      cases o with
      | none => simp [jsonbGetBool, hres]
      | some tv =>
        obtain ⟨t, v⟩ := tv
        have hb : jsonbGetBool ctx name = some (t == JSONB_TRUE) := by
          unfold jsonbGetBool
          rw [hres]
        rw [hb]
        constructor
        · intro h
          have ht : t = JSONB_TRUE := by
            have h1 := Option.some.inj h
            simpa using h1
          exact ⟨v, by rw [ht]⟩
        · rintro ⟨v', hv⟩
          have h2 := Option.some.inj (Option.some.inj hv)
          injection h2 with h3 h4
          rw [h3]
          rfl

/-- Witness for C8 at a concrete parsed payload (`{}`) and missing name. -/
theorem getters_zero_on_miss_witness :
    jsonbGetInt64 ⟨false, false, 0, none, [0x10, 0x11], 0⟩ [0x6B] = some 0
    ∧ jsonbGetInt32 ⟨false, false, 0, none, [0x10, 0x11], 0⟩ [0x6B] = some 0
    ∧ jsonbGetUint64 ⟨false, false, 0, none, [0x10, 0x11], 0⟩ [0x6B] = some 0
    ∧ jsonbGetUint32 ⟨false, false, 0, none, [0x10, 0x11], 0⟩ [0x6B] = some 0
    ∧ jsonbGetDouble ⟨false, false, 0, none, [0x10, 0x11], 0⟩ [0x6B] = some 0
    ∧ jsonbGetFloat ⟨false, false, 0, none, [0x10, 0x11], 0⟩ [0x6B] = some 0
    ∧ jsonbGetString ⟨false, false, 0, none, [0x10, 0x11], 0⟩ [0x6B] = some []
    ∧ jsonbGetBool ⟨false, false, 0, none, [0x10, 0x11], 0⟩ [0x6B] = some false :=
  (getters_zero_on_miss ⟨false, false, 0, none, [0x10, 0x11], 0⟩ [0x6B]).1 (by decide)

end Jsonb
